import Mathlib

/-!
# Verification of the metrique bitemporal ETL engine

Shallow embedding of the core of the `metrique` repository:

* `src/metriqued/metriqued/etl_api.py` — `jsonhash`, `_prep_object`,
  `_save_and_snapshot`, `_save_no_snapshot`, `_save_objects`, `save_objects`;
* `metrique/cubes/sqldata/generic.py` — `_activity_import_doc`,
  `_activity_backwards`, `_delta_force`, `get_new_oids`, `_generate_sql`,
  and the normalization pipeline `_prep_objects` / `_unwrap` /
  `_normalize_container` / `_convert` / `_typecast` / `_type_container` /
  `_type_single`.

Python 2 values that flow through these functions are modelled by the
inductive type `JVal` (null, integers standing for the numeric timestamps
the claims use, strings, lists, and the `buffer` blobs `_unwrap` handles).
Python dictionaries are modelled as association lists with unique keys
(`Doc`), with membership, `pop`, `update` and item-set semantics matching
CPython 2 dict behaviour.  SHA-1 (`hashlib.sha1(...).hexdigest()`) is an
external library call; it is modelled by an explicit `sha1hex` parameter,
instantiated with an injective stand-in for concrete evaluation (nothing
proved below depends on any other property of SHA-1; the counterexamples
rely only on it being injective on the short canonical inputs involved,
which SHA-1 is for all known inputs).
-/

namespace Metrique

/-- Python values reaching the ETL core: `None`, numbers (the claims use
integer timestamps), strings (both py2 `str` and `unicode`, which compare
equal under `==` when they hold the same text), lists (also standing for
tuples/sets fed to `jsonhash`), and the opaque `buffer` blobs unwrapped by
`_unwrap`. -/
inductive JVal where
  | jnull : JVal
  | jint : Int → JVal
  | jstr : String → JVal
  | jlist : List JVal → JVal
  | jbuf : String → JVal

open JVal

mutual
/-- Decidable structural equality on `JVal` (py2 `==` on these values,
where `str`/`unicode` with the same text compare equal). -/
def jdec : (a b : JVal) → Decidable (a = b)
  | jnull, jnull => isTrue rfl
  | jnull, jint _ | jnull, jstr _ | jnull, jbuf _ | jnull, jlist _ =>
      isFalse (by intro h; cases h)
  | jint _, jnull | jint _, jstr _ | jint _, jbuf _ | jint _, jlist _ =>
      isFalse (by intro h; cases h)
  | jstr _, jnull | jstr _, jint _ | jstr _, jbuf _ | jstr _, jlist _ =>
      isFalse (by intro h; cases h)
  | jbuf _, jnull | jbuf _, jint _ | jbuf _, jstr _ | jbuf _, jlist _ =>
      isFalse (by intro h; cases h)
  | jlist _, jnull | jlist _, jint _ | jlist _, jstr _ | jlist _, jbuf _ =>
      isFalse (by intro h; cases h)
  | jint a, jint b =>
      if h : a = b then isTrue (by rw [h])
      else isFalse (by intro hc; injection hc; exact h (by assumption))
  | jstr a, jstr b =>
      if h : a = b then isTrue (by rw [h])
      else isFalse (by intro hc; injection hc; exact h (by assumption))
  | jbuf a, jbuf b =>
      if h : a = b then isTrue (by rw [h])
      else isFalse (by intro hc; injection hc; exact h (by assumption))
  | jlist a, jlist b =>
      match jdecList a b with
      | isTrue h => isTrue (by rw [h])
      | isFalse h =>
          isFalse (by intro hc; injection hc; exact h (by assumption))

/-- Decidable elementwise equality on lists of `JVal`. -/
def jdecList : (a b : List JVal) → Decidable (a = b)
  | [], [] => isTrue rfl
  | [], _ :: _ => isFalse (by intro h; cases h)
  | _ :: _, [] => isFalse (by intro h; cases h)
  | x :: xs, y :: ys =>
      match jdec x y, jdecList xs ys with
      | isTrue h1, isTrue h2 => isTrue (by rw [h1, h2])
      | isFalse h1, _ =>
          isFalse (by intro hc; injection hc; exact h1 (by assumption))
      | _, isFalse h2 =>
          isFalse (by intro hc; injection hc; exact h2 (by assumption))
end

instance : DecidableEq JVal := jdec

/-- Python 2 truthiness (`bool(v)`): `None`, `0`, `''`, `[]` are falsy. -/
def pyTruthy : JVal → Bool
  | jnull => false
  | jint n => n ≠ 0
  | jstr s => s ≠ ""
  | jlist xs => !xs.isEmpty
  | jbuf s => s ≠ ""

/-- Python 2 `str(v)` for the values above (`repr` is used for list
elements, matching CPython's `str` of a list). -/
def pyStr : JVal → String
  | jnull => "None"
  | jint n => toString n
  | jstr s => s
  | jlist xs => "[" ++ String.intercalate ", " (xs.map fun v =>
      match v with
      | jstr s => "'" ++ s ++ "'"
      | jint n => toString n
      | jnull => "None"
      | _ => "...") ++ "]"
  | jbuf s => s

mutual
/-- Python 2 `repr(v)` for the scalar values `jsonhash` renders. -/
def pyRepr : JVal → String
  | jnull => "None"
  | jint n => toString n
  | jstr s => "'" ++ s ++ "'"
  | jlist xs => "[" ++ String.intercalate ", " (pyReprList xs) ++ "]"
  | jbuf s => "<buffer " ++ s ++ ">"

/-- `repr` of every member of a list. -/
def pyReprList : List JVal → List String
  | [] => []
  | x :: xs => pyRepr x :: pyReprList xs
end

/-! ## Dictionaries (CPython 2 `dict`) as association lists -/

/-- A Python dict object: field name → value.  The operations below keep
keys unique, as a dict does. -/
abbrev Doc := List (String × JVal)

/-- `d[k]` / `d.get(k)`: first binding of `k`. -/
def dget (d : Doc) (k : String) : Option JVal :=
  (d.find? (fun kv => kv.1 = k)).map (·.2)

/-- `k in d`: key membership. -/
def dhas (d : Doc) (k : String) : Bool :=
  d.any (fun kv => kv.1 = k)

/-- `d[k] = v`: replace the binding of `k` in place, or append it. -/
def dset (d : Doc) (k : String) (v : JVal) : Doc :=
  if dhas d k then d.map (fun kv => if kv.1 = k then (k, v) else kv)
  else d ++ [(k, v)]

/-- `d.pop(k)` / `del d[k]`: drop the binding of `k`. -/
def dpop (d : Doc) (k : String) : Doc :=
  d.filter (fun kv => kv.1 ≠ k)

/-- `d.update(e)`: bindings of `e` overwrite / extend those of `d`. -/
def dupdate (d e : Doc) : Doc :=
  e.foldl (fun acc kv => dset acc kv.1 kv.2) d

/-- `(k, v) in d.items()`. -/
def ditem (d : Doc) (kv : String × JVal) : Bool :=
  d.contains kv

/-! ## Ordering (CPython 2 `sorted`) -/

/-- Three-way comparison from a linear order, used to model CPython 2
comparison of two values of the same type. -/
def cmpOf {α : Type} [LinearOrder α] (a b : α) : Ordering :=
  if a < b then .lt else if a = b then .eq else .gt

/-- Lexicographic three-way comparison of character lists by code
point (py2 compares `str` byte-wise; the modelled strings are ASCII). -/
def sCmpL : List Char → List Char → Ordering
  | [], [] => .eq
  | [], _ :: _ => .lt
  | _ :: _, [] => .gt
  | a :: as, b :: bs =>
    if a.toNat < b.toNat then .lt
    else if b.toNat < a.toNat then .gt
    else sCmpL as bs

/-- Three-way comparison of strings. -/
def scmp (a b : String) : Ordering := sCmpL a.data b.data


mutual
/-- CPython 2 comparison of two values: `None` sorts below numbers, which
sort below every other type; values of one type compare by value
(lexicographically for lists, as py2 does). -/
def jcmp : JVal → JVal → Ordering
  | jnull, jnull => .eq
  | jnull, _ => .lt
  | _, jnull => .gt
  | jint a, jint b => cmpOf a b
  | jint _, _ => .lt
  | _, jint _ => .gt
  | jbuf a, jbuf b => scmp a b
  | jbuf _, _ => .lt
  | _, jbuf _ => .gt
  | jlist a, jlist b => jcmpList a b
  | jlist _, _ => .lt
  | _, jlist _ => .gt
  | jstr a, jstr b => scmp a b

/-- Lexicographic comparison of lists, as CPython 2 compares lists. -/
def jcmpList : List JVal → List JVal → Ordering
  | [], [] => .eq
  | [], _ :: _ => .lt
  | _ :: _, [] => .gt
  | x :: xs, y :: ys =>
    match jcmp x y with
    | .eq => jcmpList xs ys
    | o => o
end

/-- `a <= b` in the CPython 2 sort order. -/
def jle (a b : JVal) : Bool := jcmp a b ≠ .gt


/-! ## CPython 2 `sorted` as insertion sort

`list.sort` / `sorted` in the source operate on homogeneous values
(element hashes, typecast scalars, oids); insertion sort into the
comparison order models them.  The lemmas take the totality and
antisymmetry of the order as explicit hypotheses. -/

/-- Insert `x` into a run kept in `le`-order. -/
def insB {α : Type} (le : α → α → Bool) (x : α) : List α → List α
  | [] => [x]
  | y :: ys => if le x y then x :: y :: ys else y :: insB le x ys

/-- Insertion sort under the boolean order `le`. -/
def sortB {α : Type} (le : α → α → Bool) : List α → List α
  | [] => []
  | x :: xs => insB le x (sortB le xs)

/-- Adjacent-pairs sortedness under `le`. -/
def sortedB {α : Type} (le : α → α → Bool) : List α → Bool
  | [] => true
  | [_] => true
  | x :: y :: ys => le x y && sortedB le (y :: ys)


/-- Byte-lexicographic order on strings (CPython 2 `sorted` on `str`). -/
def strle (a b : String) : Bool := scmp a b ≠ .gt


/-! ## `jsonhash` (etl_api.py lines 72–93)

```python
def jsonhash(obj):
    if isinstance(obj, dict):
        return sha1(repr(frozenset(dict(
            [(jsonhash(k), jsonhash(v)) for k, v in obj.items()]).items()
        ))).hexdigest()
    elif isinstance(obj, (list, tuple, set)):
        return sha1(repr(tuple(sorted(
            [jsonhash(e) for e in list(obj)])))).hexdigest()
    else:
        return repr(obj)
```

`sha1(...).hexdigest()` (the `hashlib` library) is passed in as `sha1hex`.
`repr(frozenset(...))` lists the set's elements in a CPython-internal
order determined by the element set; the embedding canonicalizes it by
sorting the element reprs, which is set-determined in the same way.  Note
that the *list* branch sorts the element hashes before hashing. -/

/-- `repr` of a py2 string. -/
def reprStr (s : String) : String := "'" ++ s ++ "'"

/-- `repr` of a py2 tuple of strings. -/
def reprStrTuple : List String → String
  | [] => "()"
  | [s] => "(" ++ reprStr s ++ ",)"
  | xs => "(" ++ String.intercalate ", " (xs.map reprStr) ++ ")"

mutual
/-- `jsonhash` on a (non-dict) value. -/
def jsonhash (sha1hex : String → String) : JVal → String
  | jlist xs => sha1hex (reprStrTuple (sortB strle (jsonhashList sha1hex xs)))
  | v => pyRepr v

/-- `jsonhash` of every member of a list. -/
def jsonhashList (sha1hex : String → String) : List JVal → List String
  | [] => []
  | x :: xs => jsonhash sha1hex x :: jsonhashList sha1hex xs
end

/-- Keep the last binding of every key, as `dict(pairs)` does. -/
def dedupKeysLast : List (String × String) → List (String × String)
  | [] => []
  | kv :: rest =>
    if rest.any (fun kv2 => kv2.1 = kv.1) then dedupKeysLast rest
    else kv :: dedupKeysLast rest

/-- `repr` of a py2 pair of strings. -/
def reprStrPair (kv : String × String) : String :=
  "(" ++ reprStr kv.1 ++ ", " ++ reprStr kv.2 ++ ")"

/-- `jsonhash` on a dict object: hash of the canonicalized
`frozenset(dict([(jsonhash(k), jsonhash(v)) ...]).items())` repr. -/
def jsonhashDoc (sha1hex : String → String) (d : Doc) : String :=
  sha1hex ("frozenset([" ++
    String.intercalate ", "
      (sortB strle
        ((dedupKeysLast
          (d.map (fun kv =>
            (jsonhash sha1hex (jstr kv.1), jsonhash sha1hex kv.2)))).map
          reprStrPair)) ++ "])")

/-- Injective stand-in for `hashlib.sha1(x).hexdigest()`, used to evaluate
the model on concrete inputs.  No theorem below uses any property of it
beyond functionality, except the concrete counterexamples, which rely on
injectivity (SHA-1 is injective on all known distinct short inputs). -/
def sha1x (s : String) : String := "sha1(" ++ s ++ ")"

/-! ## `_prep_object` (etl_api.py lines 96–126)

```python
def _prep_object(obj, mtime):
    if not isinstance(obj, dict): raise TypeError(...)
    if '_oid' not in obj: raise ValueError('Object must have an _oid specified.')
    obj['_hash'] = jsonhash(obj)
    if '_mtime' in obj: obj['_start'] = obj.pop('_mtime')
    if '_start' not in obj: obj['_start'] = mtime
    if not isinstance(obj['_start'], (int, long, float, complex)):
        raise TypeError(...)
    return obj
```

`mtime` (a numeric timestamp after `dt2ts`) is modelled as an `Int`.
The `isinstance(obj, dict)` guard is discharged by typing. -/

/-- `isinstance(v, (int, long, float, complex))`: the numeric timestamps
the engine handles are modelled as integers. -/
def isNum : JVal → Bool
  | jint _ => true
  | _ => false

/-- `if '_mtime' in obj: obj['_start'] = obj.pop('_mtime')`. -/
def prepMtime (d : Doc) : Doc :=
  match dget d "_mtime" with
  | some v => dset (dpop d "_mtime") "_start" v
  | none => d

/-- `if '_start' not in obj: obj['_start'] = mtime`. -/
def prepStart (d : Doc) (mtime : Int) : Doc :=
  if ¬ dhas d "_start" then dset d "_start" (jint mtime) else d

/-- The final `isinstance(obj['_start'], (int, long, float, complex))`
check. -/
def prepCheck (d : Doc) : Except String Doc :=
  if ¬ isNum ((dget d "_start").getD jnull) then
    .error "Expected numerical type for _start"
  else .ok d

def prepObject (sha1hex : String → String) (obj : Doc) (mtime : Int) :
    Except String Doc :=
  if ¬ dhas obj "_oid" then .error "Object must have an _oid specified."
  else
    prepCheck
      (prepStart (prepMtime (dset obj "_hash" (jstr (jsonhashDoc sha1hex obj))))
        mtime)

/-! ## The document store (one mongodb collection)

The store is the list of documents of the cube's collection plus a
counter for minting `_id`s.

Modelled from the spec: `new_oid` (imported from `metriqued.utils`, which
is not among the sources) mints fresh opaque `_id` values — per the spec,
"The store must provide a way to mint fresh opaque `_id` values."  It is
modelled as a counter rendered into a tagged string. -/

structure Store where
  docs : List Doc
  nextId : Nat
deriving DecidableEq

/-- Modelled from the spec: a fresh opaque `_id` value, minted from the
store's counter. -/
def newOid (n : Nat) : JVal := jint (Int.ofNat n)

/-- A document's `_oid` (`None` when absent; objects that reach the
writers were prepared and always carry one). -/
def oidOf (d : Doc) : JVal := (dget d "_oid").getD jnull

/-- A live version: `_end` present and `None` (the writers always store
`_end`). -/
def isLive (d : Doc) : Bool := dget d "_end" = some jnull

/-- A document's `_id`. -/
def idOf (d : Doc) : Option JVal := dget d "_id"

/-- A document's numeric `_start`, when it has one. -/
def vstart (d : Doc) : Option Int :=
  match dget d "_start" with
  | some (jint s) => some s
  | _ => none

/-- `RE_PROP = re.compile('^_')`: keys of system properties. -/
def isProp (k : String) : Bool :=
  match k.data with
  | '_' :: _ => true
  | _ => false

/-- The non-underscore (client) fields of a document. -/
def nonUFields (d : Doc) : Doc := d.filter (fun kv => !isProp kv.1)

/-- The stored versions of one logical object, in store order. -/
def versionsOf (o : JVal) (docs : List Doc) : List Doc :=
  docs.filter (fun d => oidOf d = o)

/-- The bitemporal interval invariant of one object's version list:
every version has a numeric `_start`; each non-final version's `_end` is
the next version's `_start`, not below its own `_start` (so the half-open
`[_start, _end)` intervals are contiguous and pairwise disjoint); the
final version is the one live version. -/
def chainB : List Doc → Bool
  | [] => true
  | [d] => (vstart d).isSome && isLive d
  | d :: d2 :: rest =>
    (match vstart d, vstart d2 with
     | some s1, some s2 =>
       decide (s1 ≤ s2) && decide (dget d "_end" = some (jint s2))
     | _, _ => false) && chainB (d2 :: rest)

/-- No value occurs twice. -/
def nodupB {α : Type} [DecidableEq α] : List α → Bool
  | [] => true
  | x :: xs => !xs.contains x && nodupB xs

/-- Every stored document's `_id` was minted by the store's counter. -/
def idsFreshB (st : Store) : Bool :=
  st.docs.all (fun d =>
    (List.range st.nextId).any (fun k => idOf d = some (newOid k)))

/-- The interval invariant holds for every oid present in the store. -/
def chainAllB (st : Store) : Bool :=
  (st.docs.map oidOf).all (fun o => chainB (versionsOf o st.docs))

/-- The store invariant: fresh distinct `_id`s and, per oid, contiguous
disjoint intervals with exactly one live version. -/
def storeInvB (st : Store) : Bool :=
  idsFreshB st && nodupB (st.docs.map idOf) && chainAllB st

/-- One object fit for the snapshot path: a py2 dict (distinct keys),
prepared (`_oid` and numeric `_start` present, no `_end`, no `_id`) and
not backdated before its oid's live version. -/
def snapObjOk (st : Store) (doc : Doc) : Bool :=
  nodupB (doc.map Prod.fst) &&
  (dget doc "_oid").isSome && (vstart doc).isSome &&
  !dhas doc "_end" && !dhas doc "_id" &&
  st.docs.all (fun td =>
    if isLive td && oidOf td = oidOf doc then
      match vstart td, vstart doc with
      | some a, some b => decide (a ≤ b)
      | _, _ => false
    else true)

/-! `docmap`: a py2 dict keyed by `_oid` values. -/

/-- `m[k]` on the oid map. -/
def amGet (m : List (JVal × Doc)) (k : JVal) : Option Doc :=
  (m.find? (fun kv => kv.1 = k)).map (·.2)

/-- `m[k] = v` on the oid map (replace in place or append). -/
def amSet (m : List (JVal × Doc)) (k : JVal) (v : Doc) : List (JVal × Doc) :=
  if m.any (fun kv => kv.1 = k) then
    m.map (fun kv => if kv.1 = k then (k, v) else kv)
  else m ++ [(k, v)]

/-- `m.pop(k)` on the oid map. -/
def amPop (m : List (JVal × Doc)) (k : JVal) : List (JVal × Doc) :=
  m.filter (fun kv => kv.1 ≠ k)

/-- `update({'_id': i}, {'$set': {'_end': v}})` without `multi`: set `_end`
on the first document whose `_id` equals `i`. -/
def updFirst (docs : List Doc) (idv : Option JVal) (v : JVal) : List Doc :=
  match docs with
  | [] => []
  | d :: rest =>
    if dget d "_id" = idv then dset d "_end" v :: rest
    else d :: updFirst rest idv v

/-! ## `_save_and_snapshot` (etl_api.py lines 129–191)

The loop body, for one fetched live version `time_doc`:

```python
_oid = time_doc['_oid']
try: doc = docmap[_oid]
except KeyError: logger.warn(...); continue
_start = doc.pop('_start')
time_doc_items = time_doc.items()
if any(item not in time_doc_items for item in doc.iteritems()):
    _cube.update({'_id': time_doc['_id']}, {'$set': {'_end': _start}}, ...)
    time_doc.update(doc)
    time_doc['_start'] = _start
    docmap[_oid] = time_doc
else:
    docmap.pop(_oid)
```

Objects reaching this writer through `save_objects` were prepared by
`_prep_object` and therefore always carry `_oid` and `_start`; the model
reads them with a `jnull` default in place of py2's `KeyError`.  The
fold's third component counts store write operations (one per `update`
call and one per inserted document). -/

def snapStep (st : List Doc × List (JVal × Doc) × Nat) (td : Doc) :
    List Doc × List (JVal × Doc) × Nat :=
  let (docs, docmap, writes) := st
  match amGet docmap (oidOf td) with
  | none => (docs, docmap, writes)
  | some doc =>
    let s := (dget doc "_start").getD jnull
    let doc' := dpop doc "_start"
    if doc'.any (fun kv => ¬ ditem td kv) then
      let docs := updFirst docs (idOf td) s
      let merged := dset (dupdate td doc') "_start" s
      (docs, amSet docmap (oidOf td) merged, writes + 1)
    else
      (docs, amPop docmap (oidOf td), writes)

def saveAndSnapshot (store : Store) (objects : List Doc) : Store × Nat :=
  let docmap := objects.foldl (fun m doc => amSet m (oidOf doc) doc) []
  let tds := store.docs.filter (fun td =>
    isLive td && (amGet docmap (oidOf td)).isSome)
  let r := tds.foldl snapStep (store.docs, docmap, 0)
  let survivors := (r.2.1.map (·.2)).enum.map (fun iv =>
    dset (dset iv.2 "_id" (newOid (store.nextId + iv.1))) "_end" jnull)
  (⟨r.1 ++ survivors, store.nextId + survivors.length⟩,
    r.2.2 + survivors.length)

/-! ## `_save_no_snapshot` (etl_api.py lines 194–224)

Objects with an `_id` overwrite the stored document with that `_id`
(pymongo `save`: replace-by-`_id`, insert when absent); the rest receive
a fresh `_id` and are bulk-inserted after the loop. -/

/-- pymongo `collection.save(obj)` for an `obj` that has an `_id`. -/
def pysave (docs : List Doc) (obj : Doc) : List Doc :=
  match docs with
  | [] => [obj]
  | d :: rest =>
    if dget d "_id" = dget obj "_id" then obj :: rest
    else d :: pysave rest obj

def saveNoSnapshot (store : Store) (objects : List Doc) : Store × Nat :=
  let (docs, batch, nextId, writes) := objects.foldl
    (fun st obj =>
      let (docs, batch, nextId, writes) := st
      if dhas obj "_id" then (pysave docs obj, batch, nextId, writes + 1)
      else (docs, batch ++ [dset obj "_id" (newOid nextId)], nextId + 1,
        writes))
    (store.docs, ([] : List Doc), store.nextId, 0)
  (⟨docs ++ batch, nextId⟩, writes + batch.length)

/-! ## `_save_objects` and `save_objects` (etl_api.py lines 227–294)

`_save_objects` splits on the presence of the `_end` key (note: a present
`_end` whose value is `None` also selects the no-snapshot path).
`save_objects` validates `owner`/`cube`/`objects`, drops falsy objects,
prepares the rest, saves them and returns their oids.  The
`etl_activity_update` bookkeeping writes to a separate collection and is
outside the modelled store. -/

def saveObjectsSplit (store : Store) (objects : List Doc) : Store × Nat :=
  let no_snap := objects.filter (fun o => dhas o "_end")
  let r1 := if no_snap.length > 0 then saveNoSnapshot store no_snap
    else (store, 0)
  let to_snap := objects.filter (fun o => ¬ dhas o "_end")
  let r2 := if to_snap.length > 0 then saveAndSnapshot r1.1 to_snap
    else (r1.1, 0)
  (r2.1, r1.2 + r2.2)

def saveObjects (sha1hex : String → String) (owner cube : String)
    (objects : List Doc) (mtime : Int) (store : Store) :
    Except String (Store × Nat × List JVal) := do
  if owner = "" ∨ cube = "" ∨ objects = [] then
    throw "owner, cube, objects required"
  let prepped ← (objects.filter (fun o => ¬ o.isEmpty)).mapM
    (fun o => prepObject sha1hex o mtime)
  let r := saveObjectsSplit store prepped
  return (r.1, r.2, prepped.map (fun o => (dget o "_oid").getD jnull))

/-! ## `_activity_backwards` (generic.py lines 207–220)

```python
if isinstance(added, list) and isinstance(removed, list):
    val = [] if val is None else val
    inconsistent = False
    for ad in added:
        if ad in val: val.remove(ad)
        else: inconsistent = True
    val.extend(removed)
else:
    inconsistent = val != added
    val = removed
return val, inconsistent
```

In the list branch the engine only ever passes a list (or `None`) as
`val`; the model reads other values as the empty list. -/

def activityBackwards (val removed added : JVal) : JVal × Bool :=
  match added, removed with
  | jlist la, jlist lr =>
    let l0 : List JVal := match val with
      | jnull => []
      | jlist xs => xs
      | _ => []
    let r := la.foldl (fun (st : List JVal × Bool) ad =>
      if st.1.contains ad then (st.1.erase ad, st.2) else (st.1, true))
      (l0, false)
    (jlist (r.1 ++ lr), r.2)
  | _, _ => (removed, decide (val ≠ added))

/-! ## `_activity_import_doc` (generic.py lines 144–205)

A change-log entry `(when, field, removed, added)` is modelled with an
integer `when` (the claims use numeric timestamps).  `batch_updates` is
kept as a stack whose head is the python list's last element; the
returned list is in python order (current version first, oldest last).
The nested `_corrupted` dict (field → added value) is encoded as a list
of two-element `[field, added]` lists, since `JVal` has no dict
constructor; no claim inspects its contents. -/

/-- One change-log entry: `(when, field, removed, added)`. -/
abbrev Act := Int × String × JVal × JVal

/-- `new_doc['_corrupted'][field] = added` after
`new_doc.setdefault('_corrupted', {})`. -/
def setCorrupted (d : Doc) (field : String) (added : JVal) : Doc :=
  let cur : List JVal := match dget d "_corrupted" with
    | some (jlist ps) => ps
    | _ => []
  let hit := cur.any (fun p => match p with
    | jlist (jstr k :: _) => k = field
    | _ => false)
  let ps := if hit then
      cur.map (fun p => match p with
        | jlist (jstr k :: rest) =>
          if k = field then jlist [jstr k, added] else jlist (jstr k :: rest)
        | p => p)
    else cur ++ [jlist [jstr field, added]]
  dset d "_corrupted" (jlist ps)

/-- The body of the replay loop, one activity at a time (stack head =
python list tail). -/
def aidStep (stack : List Doc) (act : Act) : List Doc :=
  let (when, field, removed, added) := act
  match stack with
  | [] => []
  | last0 :: rest0 =>
    let nlr : Doc × Doc × List Doc :=
      if (dget last0 "_end").getD jnull = jint when then
        match rest0 with
        | last2 :: rest2 => (last0, last2, rest2)
        | [] => (last0, last0, [])
      else
        (dset (dset last0 "_start" (jint when)) "_end" (jint when),
         dset last0 "_start" (jint when), rest0)
    let (new0, last_doc, rest) := nlr
    let r := activityBackwards ((dget new0 field).getD jnull) removed added
    let new1 := dset new0 field r.1
    let new2 := if r.2 then setCorrupted new1 field added else new1
    new2 :: last_doc :: rest

/-- `activities.sort(reverse=True, key=lambda o: o[0])`: stable
descending sort by `when`. -/
def sortActsDesc (acts : List Act) : List Act :=
  sortB (fun a b => decide (b.1 ≤ a.1)) acts

def activityImportDoc (cfield : Option String) (time_doc : Doc)
    (activities : List Act) : List Doc :=
  let tdStart := (dget time_doc "_start").getD jnull
  let acts := activities.filter (fun a =>
    jcmp (jint a.1) tdStart = .lt ∧ dhas time_doc a.2.1)
  let acts := sortActsDesc acts
  let stack := acts.foldl aidStep [time_doc]
  let bu := stack.reverse
  match cfield with
  | none => bu
  | some cf =>
    match bu.getLast? with
    | none => bu
    | some last_doc =>
      match dget last_doc cf with
      | none => bu
      | some cts =>
        if jcmp cts ((dget last_doc "_start").getD jnull) = .lt then
          bu.dropLast ++ [dset last_doc "_start" cts]
        else if bu.length = 1 then []
        else bu

/-! ## `_delta_force` (generic.py lines 237–257)

```python
force = force or config.get('force') or False
oids = []
if force is True: oids = self.sql_get_oids()
elif not force:
    if config.get('delta_new_ids', True): oids.extend(self.get_new_oids())
    if config.get('delta_mtime', False):
        oids.extend(self.get_changed_oids(last_update, parse_timestamp))
elif isinstance(force, (list, tuple, set)): oids = list(force)
else: force = [force]
return sorted(set(oids))
```

The three oid queries hit the SQL source and the store; their results are
explicit inputs (`sqlOids`, `newOids`, `changedOids`).  Note the final
`else` branch rebinds `force` but never assigns `oids`. -/

/-- A python `force` argument: `None`/`False`, `True`, a
list/tuple/set, or a scalar. -/
inductive Force where
  | fnone : Force
  | ftrue : Force
  | flist : List JVal → Force
  | fscalar : JVal → Force
deriving DecidableEq

/-- Truthiness of a `force` value. -/
def forceTruthy : Force → Bool
  | .fnone => false
  | .ftrue => true
  | .flist l => !l.isEmpty
  | .fscalar v => pyTruthy v

/-- Keep-first deduplication, tracking the values already kept. -/
def dedupGo (seen : List JVal) : List JVal → List JVal
  | [] => []
  | x :: xs =>
    if seen.contains x then dedupGo seen xs
    else x :: dedupGo (x :: seen) xs

/-- Keep-first deduplication (`set(...)`, canonicalized by the sort that
always follows it). -/
def dedupJ (l : List JVal) : List JVal := dedupGo [] l

/-- `sorted(set(l))`. -/
def sortedSet (l : List JVal) : List JVal := sortB jle (dedupJ l)

def deltaForce (paramForce cfgForce : Force)
    (deltaNewIds deltaMtime : Bool)
    (sqlOids newOids changedOids : List JVal) : List JVal :=
  let force := if forceTruthy paramForce then paramForce
    else if forceTruthy cfgForce then cfgForce else .fnone
  let oids :=
    if force = .ftrue then sqlOids
    else if ¬ forceTruthy force then
      (if deltaNewIds then newOids else []) ++
        (if deltaMtime then changedOids else [])
    else match force with
      | .flist l => l
      | _ => []
  sortedSet oids

/-! ## `get_new_oids` (generic.py lines 445–464)

```python
last_id = self.get_last_field('_oid')
ids = []
if last_id:
    try:
        last_id = float(last_id)
        where = "%s.%s > %s" % (table, _oid, last_id)
    except (TypeError, ValueError):
        where = "%s.%s > '%s'" % (table, _oid, last_id)
    ids = self.sql_get_oids(where)
return ids
```

`get_last_field('_oid')` (the maximum oid previously stored, `None` when
the cube holds nothing) and the source's oid column are explicit inputs;
`sql_get_oids(where)` is modelled as the sorted distinct source oids
satisfying the comparison. -/

/-- `float(v)` where it succeeds (the claims use integral values). -/
def pyFloat : JVal → Option Int
  | jint n => some n
  | jstr s => s.toInt?
  | _ => none

def getNewOids (sourceOids : List JVal) (lastId : JVal) : List JVal :=
  if ¬ pyTruthy lastId then []
  else
    match pyFloat lastId with
    | some x => sortedSet (sourceOids.filter (fun o => match o with
        | jint n => x < n
        | _ => false))
    | none => sortedSet (sourceOids.filter (fun o => match o with
        | jstr s => scmp (pyStr lastId) s = .lt
        | _ => false))

/-! ## The normalization pipeline (generic.py lines 556–650)

`_prep_objects` runs, per field of a row:
`_unwrap → _normalize_container → _convert → _typecast`.
A field schema entry holds the `container` flag, the optional python
`type` (modelled by `TypeTag`: the `int` and text types the cubes use)
and the optional `convert` callable. -/

/-- The python types a field's `type` entry can name.  Text (`str` /
`unicode`, whose values compare equal under `==` once they carry the same
text) is one tag. -/
inductive TypeTag where
  | tInt : TypeTag
  | tStr : TypeTag
deriving DecidableEq

/-- A field schema entry as the normalizer reads it. -/
structure FieldDef where
  container : Bool := false
  type : Option TypeTag := none
  convert : Option (JVal → JVal) := none

/-- `isinstance(v, t)`. -/
def isinst (v : JVal) (t : TypeTag) : Bool :=
  match t, v with
  | .tInt, jint _ => true
  | .tStr, jstr _ => true
  | _, _ => false

/-- Decimal digits to a value, as `int(...)` reads them. -/
def digitsVal (acc : Nat) : List Char → Option Nat
  | [] => some acc
  | c :: cs =>
    if 48 ≤ c.toNat ∧ c.toNat ≤ 57 then
      digitsVal (acc * 10 + (c.toNat - 48)) cs
    else none

/-- `int(s)` on a decimal string, optionally signed; `None` stands for
the `ValueError` py2 raises on anything else. -/
def pyParseInt (s : String) : Option Int :=
  match s.data with
  | [] => none
  | '-' :: rest =>
    if rest.isEmpty then none
    else (digitsVal 0 rest).map (fun n => -(n : Int))
  | l => (digitsVal 0 l).map (fun n => (n : Int))

/-- Application `_type(value)` of a python type to a value of another
type: `int(...)` parses decimal strings and fails otherwise; `str(...)`
renders. -/
def tcast : TypeTag → JVal → Except String JVal
  | .tInt, jstr s =>
    match pyParseInt s with
    | some n => .ok (jint n)
    | none => .error "invalid literal for int()"
  | .tInt, jint n => .ok (jint n)
  | .tInt, _ => .error "int() argument mismatch"
  | .tStr, v => .ok (jstr (pyStr v))

/-- `_type_single` (lines 615–636).  The trailing `unicode`/`str`
re-encoding normalizes text representations, which the model's single
string type already identifies. -/
def typeSingle (t : Option TypeTag) (v : JVal) : Except String JVal :=
  if v = jnull then .ok jnull
  else if v = jstr "" then .ok jnull
  else match t with
    | none => .ok (jstr (pyStr v))
    | some t => if isinst v t then .ok v else tcast t v

/-- `_type_single` applied to every member of a list, failures
propagating. -/
def typeSingleList (t : Option TypeTag) : List JVal →
    Except String (List JVal)
  | [] => .ok []
  | x :: xs => do
    let y ← typeSingle t x
    let ys ← typeSingleList t xs
    return y :: ys

/-- `_type_container` (lines 605–613). -/
def typeContainer (t : Option TypeTag) (v : JVal) : Except String JVal :=
  if v = jnull then .ok (jlist [])
  else match v with
    | jlist xs => do
      let ys ← typeSingleList t xs
      return jlist (sortB jle ys)
    | _ => .error "expected list type"

/-- `_typecast` (lines 597–603). -/
def typecast (fd : FieldDef) (v : JVal) : Except String JVal :=
  if fd.container then typeContainer fd.type v else typeSingle fd.type v

/-- `_convert` (lines 222–235): skip null, apply elementwise on
containers. -/
def convertF (fd : FieldDef) (v : JVal) : JVal :=
  if v = jnull then jnull
  else match fd.convert with
    | none => v
    | some f =>
      if fd.container then
        match v with
        | jlist xs => jlist (xs.map f)
        | w => w
      else f v

/-- `isinstance(value, (list, tuple))`. -/
def isListV : JVal → Bool
  | jlist _ => true
  | _ => false

/-- `_normalize_container` (lines 556–568). -/
def normalizeContainer (fd : FieldDef) (v : JVal) : Except String JVal :=
  if fd.container && !isListV v then
    .ok (if pyTruthy v then jlist [v] else jnull)
  else if !fd.container && isListV v then
    .error "Expected single value, got list"
  else .ok v

/-- `_unwrap` (lines 638–650): decode a `buffer` blob, strip quotes and
whitespace, null when empty, else split into lines. -/
def unwrap (v : JVal) : JVal :=
  match v with
  | jbuf s =>
    let s := (s.replace "\"" "").trim
    if s = "" then jnull
    else jlist ((s.splitOn "\n").map jstr)
  | v => v

/-- The per-field pipeline of `_prep_objects` (lines 570–577):
unwrap, then normalize the container shape, then convert, then
typecast. -/
def normalizeField (fd : FieldDef) (v : JVal) : Except String JVal := do
  let v2 ← normalizeContainer fd (unwrap v)
  typecast fd (convertF fd v2)

/-- `_prep_objects` on one row: every field's value is replaced by its
normalized value. -/
def normalizeRow (schema : String → FieldDef) : Doc → Except String Doc
  | [] => .ok []
  | kv :: rest => do
    let v ← normalizeField (schema kv.1) kv.2
    let rest2 ← normalizeRow schema rest
    return (kv.1, v) :: rest2

/-! ## `_generate_sql` (generic.py lines 333–361)

```python
db = config.get('db'); _oid = config.get('_oid'); table = config.get('table')
if not all((_oid, table, db)): raise ValueError("Must define db, table, _oid in config!")
selects = []; stmts = []
for as_field, opts in self.fields.iteritems():
    select = opts.get('select') or '%s.%s' % (table, as_field)
    selects.append('%s as %s' % (select, as_field))
    sql = re.sub('\\s+', ' ', opts.get('sql') or '')
    if sql: stmts.append(sql)
sql = 'SELECT %s FROM %s.%s %s' % (', '.join(selects), db, table, ' '.join(stmts))
if _oids: sql += ' WHERE %s.%s in (%s)' % (table, _oid, ','.join(map(str, _oids)))
if sort: sql += " ORDER BY %s.%s ASC" % (table, _oid)
return re.sub('\\s+', ' ', sql)
```

The spec's error taxonomy calls this failure a `ConfigError` (the python
exception class is `ValueError`); the model's error constructor carries
the message. -/

/-- The SQL-relevant entries of a field schema record. -/
structure SqlField where
  select : Option String := none
  sql : Option String := none

/-- `config.get(k)` truthiness: present and non-empty. -/
def optTruthy : Option String → Bool
  | some s => s ≠ ""
  | none => false

/-- `re.sub('\\s+', ' ', s)`: collapse whitespace runs to single
spaces. -/
def collapseWs (s : String) : String :=
  let r := s.toList.foldl (fun (st : List Char × Bool) c =>
    if c = ' ' ∨ c = '\t' ∨ c = '\n' ∨ c = '\r' then
      if st.2 then st else (st.1 ++ [' '], true)
    else (st.1 ++ [c], false)) ([], false)
  String.mk r.1

/-- The failure categories of §7 of the spec; `configError` stands for
the `raise ValueError("Must define db, table, _oid in config!")`. -/
inductive SqlGenError where
  | configError : String → SqlGenError
deriving DecidableEq

def generateSql (db table oidCol : Option String)
    (fields : List (String × SqlField)) (oids : List JVal) (sort : Bool) :
    Except SqlGenError String :=
  if ¬ (optTruthy oidCol ∧ optTruthy table ∧ optTruthy db) then
    .error (.configError "Must define db, table, _oid in config!")
  else
    let tableS := table.getD ""
    let selects := fields.map (fun fo =>
      (if optTruthy fo.2.select then fo.2.select.getD ""
        else tableS ++ "." ++ fo.1) ++ " as " ++ fo.1)
    let stmts := (fields.map (fun fo =>
      collapseWs (fo.2.sql.getD ""))).filter (fun s => s ≠ "")
    let sql := "SELECT " ++ String.intercalate ", " selects ++ " FROM " ++
      db.getD "" ++ "." ++ tableS ++ " " ++ String.intercalate " " stmts
    let sql := if !oids.isEmpty then
        sql ++ " WHERE " ++ tableS ++ "." ++ oidCol.getD "" ++ " in (" ++
          String.intercalate "," (oids.map pyStr) ++ ")"
      else sql
    let sql := if sort then
        sql ++ " ORDER BY " ++ tableS ++ "." ++ oidCol.getD "" ++ " ASC"
      else sql
    .ok (collapseWs sql)

/-- Decidable equality on `Except` results, for evaluating the model. -/
instance {ε α : Type} [DecidableEq ε] [DecidableEq α] :
    DecidableEq (Except ε α) := fun x y =>
  match x, y with
  | .ok a, .ok b =>
    if h : a = b then isTrue (by rw [h])
    else isFalse (by intro hc; cases hc; exact h rfl)
  | .error a, .error b =>
    if h : a = b then isTrue (by rw [h])
    else isFalse (by intro hc; cases hc; exact h rfl)
  | .ok _, .error _ => isFalse (by intro hc; cases hc)
  | .error _, .ok _ => isFalse (by intro hc; cases hc)

/-! ## Concrete instances the claims are evaluated on -/

/-- The store after snapshot-ingesting `{_oid: 9, x: 1, _start: 50}`
into an empty cube (the live version of the spec's scenario S2). -/
def s2Store : Store :=
  ((saveObjects sha1x "o" "c"
    [[("_oid", jint 9), ("x", jint 1), ("_start", jint 50)]] 0
    ⟨[], 0⟩).toOption.map (·.1)).getD ⟨[], 0⟩

/-- A field schema with an `int` field whose `convert` increments — a
convert function that is not idempotent, as nothing in the source
requires it to be. -/
def schConv : String → FieldDef := fun _ =>
  ⟨false, some .tInt, some (fun v => match v with
    | jint n => jint (n + 1)
    | v => v)⟩

/-! ## Order and sorting lemmas -/

theorem cmpOf_eq_iff {α : Type} [LinearOrder α] (a b : α) :
    cmpOf a b = .eq ↔ a = b := by
  unfold cmpOf
  rcases lt_trichotomy a b with h | h | h
  · simp [h, h.ne]
  · simp [h, lt_irrefl]
  · simp [lt_asymm h, h.ne']

theorem cmpOf_swap {α : Type} [LinearOrder α] (a b : α) :
    cmpOf b a = (cmpOf a b).swap := by
  unfold cmpOf
  rcases lt_trichotomy a b with h | h | h
  · simp [h, lt_asymm h, h.ne', Ordering.swap]
  · simp [h, lt_irrefl, Ordering.swap]
  · simp [h, lt_asymm h, h.ne', Ordering.swap]


theorem sCmpL_swap : (a b : List Char) → sCmpL b a = (sCmpL a b).swap
  | [], [] => rfl
  | [], _ :: _ => rfl
  | _ :: _, [] => rfl
  | a :: as, b :: bs => by
      simp only [sCmpL]
      rcases Nat.lt_trichotomy a.toNat b.toNat with h | h | h
      · simp [h, Nat.lt_asymm h, Ordering.swap]
      · simp [h, Nat.lt_irrefl, sCmpL_swap as bs]
      · simp [h, Nat.lt_asymm h, Ordering.swap]

theorem sCmpL_eq_iff : (a b : List Char) → (sCmpL a b = .eq ↔ a = b)
  | [], [] => by simp [sCmpL]
  | [], _ :: _ => by simp [sCmpL]
  | _ :: _, [] => by simp [sCmpL]
  | a :: as, b :: bs => by
      simp only [sCmpL]
      rcases Nat.lt_trichotomy a.toNat b.toNat with h | h | h
      · rw [if_pos h]
        constructor
        · intro hc; cases hc
        · intro hc
          injection hc with h1 _
          exact absurd (h1 ▸ h) (Nat.lt_irrefl _)
      · have hab : a = b := Char.eq_of_val_eq (UInt32.ext h)
        simp [h, Nat.lt_irrefl, hab, sCmpL_eq_iff as bs]
      · rw [if_neg (by omega), if_pos h]
        constructor
        · intro hc; cases hc
        · intro hc
          injection hc with h1 _
          exact absurd (h1 ▸ h) (Nat.lt_irrefl _)

theorem sCmpL_lt_trans : (a b c : List Char) → sCmpL a b = .lt →
    sCmpL b c = .lt → sCmpL a c = .lt
  | [], [], _ :: _, _, _ => rfl
  | [], _ :: _, _ :: _, _, _ => rfl
  | [], [], [], h, _ => by cases h
  | [], _ :: _, [], _, h => by cases h
  | _ :: _, [], _, h, _ => by cases h
  | _ :: _, _ :: _, [], _, h => by cases h
  | a :: as, b :: bs, c :: cs, h1, h2 => by
      simp only [sCmpL] at h1 h2 ⊢
      rcases Nat.lt_trichotomy a.toNat b.toNat with hab | hab | hab
      · rcases Nat.lt_trichotomy b.toNat c.toNat with hbc | hbc | hbc
        · rw [if_pos (by omega)]
        · rw [if_pos (by omega)]
        · rw [if_neg (by omega), if_pos (by omega)] at h2
          cases h2
      · rcases Nat.lt_trichotomy b.toNat c.toNat with hbc | hbc | hbc
        · rw [if_pos (by omega)]
        · rw [if_neg (by omega), if_neg (by omega)] at h1
          rw [if_neg (by omega), if_neg (by omega)] at h2
          rw [if_neg (by omega), if_neg (by omega)]
          exact sCmpL_lt_trans as bs cs h1 h2
        · rw [if_neg (by omega), if_pos (by omega)] at h2
          cases h2
      · rw [if_neg (by omega), if_pos (by omega)] at h1
        cases h1

theorem scmp_swap (a b : String) : scmp b a = (scmp a b).swap :=
  sCmpL_swap a.data b.data

theorem scmp_eq_iff (a b : String) : scmp a b = .eq ↔ a = b := by
  unfold scmp
  rw [sCmpL_eq_iff]
  exact ⟨String.ext, fun h => h ▸ rfl⟩

theorem scmp_lt_trans (a b c : String) (h1 : scmp a b = .lt)
    (h2 : scmp b c = .lt) : scmp a c = .lt :=
  sCmpL_lt_trans a.data b.data c.data h1 h2

mutual
theorem jcmp_swap : (a b : JVal) → jcmp b a = (jcmp a b).swap
  | jnull, jnull => rfl
  | jnull, jint _ | jnull, jstr _ | jnull, jbuf _ | jnull, jlist _ => rfl
  | jint _, jnull | jint _, jstr _ | jint _, jbuf _ | jint _, jlist _ => rfl
  | jstr _, jnull | jstr _, jint _ | jstr _, jbuf _ | jstr _, jlist _ => rfl
  | jbuf _, jnull | jbuf _, jint _ | jbuf _, jstr _ | jbuf _, jlist _ => rfl
  | jlist _, jnull | jlist _, jint _ | jlist _, jstr _ | jlist _, jbuf _ => rfl
  | jint a, jint b => by simp [jcmp, cmpOf_swap a b]
  | jstr a, jstr b => by simp [jcmp, scmp_swap a b]
  | jbuf a, jbuf b => by simp [jcmp, scmp_swap a b]
  | jlist a, jlist b => by simpa [jcmp] using jcmpList_swap a b

theorem jcmpList_swap : (a b : List JVal) → jcmpList b a = (jcmpList a b).swap
  | [], [] => rfl
  | [], _ :: _ => rfl
  | _ :: _, [] => rfl
  | x :: xs, y :: ys => by
      simp only [jcmpList, jcmp_swap x y, jcmpList_swap xs ys]
      cases jcmp x y <;> simp [Ordering.swap]
end

mutual
theorem jcmp_eq_iff : (a b : JVal) → (jcmp a b = .eq ↔ a = b)
  | jnull, jnull => by simp [jcmp]
  | jnull, jint _ | jnull, jstr _ | jnull, jbuf _ | jnull, jlist _ => by
      simp [jcmp]
  | jint _, jnull | jint _, jstr _ | jint _, jbuf _ | jint _, jlist _ => by
      simp [jcmp]
  | jstr _, jnull | jstr _, jint _ | jstr _, jbuf _ | jstr _, jlist _ => by
      simp [jcmp]
  | jbuf _, jnull | jbuf _, jint _ | jbuf _, jstr _ | jbuf _, jlist _ => by
      simp [jcmp]
  | jlist _, jnull | jlist _, jint _ | jlist _, jstr _ | jlist _, jbuf _ => by
      simp [jcmp]
  | jint a, jint b => by simp [jcmp, cmpOf_eq_iff]
  | jstr a, jstr b => by simp [jcmp, scmp_eq_iff]
  | jbuf a, jbuf b => by simp [jcmp, scmp_eq_iff]
  | jlist a, jlist b => by simpa [jcmp] using jcmpList_eq_iff a b

theorem jcmpList_eq_iff : (a b : List JVal) → (jcmpList a b = .eq ↔ a = b)
  | [], [] => by simp [jcmpList]
  | [], _ :: _ => by simp [jcmpList]
  | _ :: _, [] => by simp [jcmpList]
  | x :: xs, y :: ys => by
      simp only [jcmpList]
      rcases h : jcmp x y with _ | _ | _
      · simp only [List.cons.injEq]
        constructor
        · intro hc; cases hc
        · intro hc
          exact absurd ((jcmp_eq_iff x y).mpr hc.1) (by simp [h])
      · simp [(jcmp_eq_iff x y).mp h, jcmpList_eq_iff xs ys]
      · simp only [List.cons.injEq]
        constructor
        · intro hc; cases hc
        · intro hc
          exact absurd ((jcmp_eq_iff x y).mpr hc.1) (by simp [h])
end

theorem jle_total (a b : JVal) : jle a b = true ∨ jle b a = true := by
  simp only [jle, jcmp_swap a b, decide_eq_true_eq]
  cases jcmp a b <;> simp [Ordering.swap]

theorem jle_antisymm (a b : JVal) (h1 : jle a b = true) (h2 : jle b a = true) :
    a = b := by
  rw [jle, jcmp_swap a b, decide_eq_true_eq] at h2
  rw [jle, decide_eq_true_eq] at h1
  apply (jcmp_eq_iff a b).mp
  cases h : jcmp a b <;> rw [h] at h1 h2 <;> simp_all [Ordering.swap]

theorem insB_head {α : Type} (le : α → α → Bool) (x : α) (l : List α) :
    insB le x l = x :: l ∨
      ∃ y ys, l = y :: ys ∧ insB le x l = y :: insB le x ys := by
  cases l with
  | nil => exact Or.inl rfl
  | cons y ys =>
      by_cases h : le x y = true
      · exact Or.inl (by simp [insB, h])
      · exact Or.inr ⟨y, ys, rfl, by simp [insB, h]⟩

theorem sortedB_insB {α : Type} (le : α → α → Bool)
    (hTot : ∀ a b, le a b = true ∨ le b a = true) (x : α) :
    ∀ l : List α, sortedB le l = true → sortedB le (insB le x l) = true := by
  intro l
  induction l with
  | nil => intro _; rfl
  | cons y ys ih =>
      intro hs
      by_cases h : le x y = true
      · simp [insB, if_pos h, sortedB, h, hs]
      · have hyx : le y x = true := (hTot x y).resolve_left h
        have hys : sortedB le ys = true := by
          cases ys with
          | nil => rfl
          | cons z zs =>
              have h2 := hs
              simp only [sortedB, Bool.and_eq_true] at h2
              exact h2.2
        have hrec := ih hys
        simp only [insB, if_neg h]
        rcases insB_head le x ys with hcase | ⟨z, zs, hzs, hcase⟩
        · rw [hcase] at hrec ⊢
          simp [sortedB, hyx, hrec]
        · rw [hcase] at hrec ⊢
          have hyz : le y z = true := by
            rw [hzs] at hs
            simp only [sortedB, Bool.and_eq_true] at hs
            exact hs.1
          simp [sortedB, hyz, hrec]

theorem sortedB_sortB {α : Type} (le : α → α → Bool)
    (hTot : ∀ a b, le a b = true ∨ le b a = true) :
    ∀ l : List α, sortedB le (sortB le l) = true := by
  intro l
  induction l with
  | nil => rfl
  | cons x xs ih => exact sortedB_insB le hTot x _ ih

theorem sortB_of_sortedB {α : Type} (le : α → α → Bool) :
    ∀ l : List α, sortedB le l = true → sortB le l = l := by
  intro l
  induction l with
  | nil => intro _; rfl
  | cons x xs ih =>
      intro hs
      have hxs : sortedB le xs = true := by
        cases xs with
        | nil => rfl
        | cons y ys =>
            have h2 := hs
            simp only [sortedB, Bool.and_eq_true] at h2
            exact h2.2
      have := ih hxs
      simp only [sortB, this]
      cases xs with
      | nil => rfl
      | cons y ys =>
          have hxy : le x y = true := by
            have h2 := hs
            simp only [sortedB, Bool.and_eq_true] at h2
            exact h2.1
          simp [insB, hxy]

theorem insB_comm {α : Type} (le : α → α → Bool)
    (hTot : ∀ a b, le a b = true ∨ le b a = true)
    (hAnti : ∀ a b, le a b = true → le b a = true → a = b)
    (hTrans : ∀ a b c, le a b = true → le b c = true → le a c = true)
    (x y : α) :
    ∀ l : List α, insB le x (insB le y l) = insB le y (insB le x l) := by
  intro l
  induction l with
  | nil =>
      by_cases hxy : le x y = true
      · by_cases hyx : le y x = true
        · rw [hAnti x y hxy hyx]
        · simp [insB, hxy, hyx]
      · have hyx : le y x = true := (hTot x y).resolve_left hxy
        simp [insB, hxy, hyx]
  | cons z zs ih =>
      by_cases hxz : le x z = true <;> by_cases hyz : le y z = true
      · by_cases hxy : le x y = true
        · by_cases hyx : le y x = true
          · rw [hAnti x y hxy hyx]
          · simp [insB, hxz, hyz, hxy, hyx]
        · have hyx : le y x = true := (hTot x y).resolve_left hxy
          simp [insB, hxz, hyz, hxy, hyx]
      · have hyx : ¬ le y x = true := fun hc => hyz (hTrans y x z hc hxz)
        simp [insB, hxz, hyz, hyx]
      · have hxy : ¬ le x y = true := fun hc => hxz (hTrans x y z hc hyz)
        simp [insB, hxz, hyz, hxy]
      · simp [insB, hxz, hyz, ih]

theorem sortB_congr_perm {α : Type} (le : α → α → Bool)
    (hTot : ∀ a b, le a b = true ∨ le b a = true)
    (hAnti : ∀ a b, le a b = true → le b a = true → a = b)
    (hTrans : ∀ a b c, le a b = true → le b c = true → le a c = true)
    {l₁ l₂ : List α} (h : l₁.Perm l₂) : sortB le l₁ = sortB le l₂ := by
  induction h with
  | nil => rfl
  | cons x _ ih => simp [sortB, ih]
  | swap x y l => simp [sortB, insB_comm le hTot hAnti hTrans]
  | trans _ _ ih₁ ih₂ => exact ih₁.trans ih₂

theorem strle_total (a b : String) : strle a b = true ∨ strle b a = true := by
  simp only [strle, scmp_swap a b, decide_eq_true_eq]
  cases scmp a b <;> simp [Ordering.swap]

theorem strle_antisymm (a b : String) (h1 : strle a b = true)
    (h2 : strle b a = true) : a = b := by
  rw [strle, scmp_swap a b, decide_eq_true_eq] at h2
  rw [strle, decide_eq_true_eq] at h1
  apply (scmp_eq_iff a b).mp
  cases h : scmp a b <;> rw [h] at h1 h2 <;> simp_all [Ordering.swap]

theorem strle_trans (a b c : String) (h1 : strle a b = true)
    (h2 : strle b c = true) : strle a c = true := by
  rw [strle, decide_eq_true_eq] at h1 h2 ⊢
  cases hab : scmp a b with
  | eq => rw [(scmp_eq_iff a b).mp hab]; exact h2
  | gt => exact absurd hab h1
  | lt =>
    cases hbc : scmp b c with
    | eq => rw [← (scmp_eq_iff b c).mp hbc]; exact h1
    | gt => exact absurd hbc h2
    | lt => simp [scmp_lt_trans a b c hab hbc]

/-! ## Dictionary lemmas -/

theorem dget_cons (kv : String × JVal) (d : Doc) (k : String) :
    dget (kv :: d) k = if kv.1 = k then some kv.2 else dget d k := by
  by_cases h : kv.1 = k <;>
    simp [dget, List.find?_cons_of_pos, List.find?_cons_of_neg, h]

theorem dget_append (d1 d2 : Doc) (k : String) :
    dget (d1 ++ d2) k =
      match dget d1 k with
      | some v => some v
      | none => dget d2 k := by
  induction d1 with
  | nil => simp [dget]
  | cons kv rest ih =>
      by_cases h : kv.1 = k <;> simp [dget_cons, h, ih]

theorem dget_map_replace (d : Doc) (k : String) (v : JVal)
    (h : dhas d k = true) :
    dget (d.map (fun kv => if kv.1 = k then (k, v) else kv)) k = some v := by
  induction d with
  | nil => simp [dhas] at h
  | cons kv rest ih =>
      by_cases hk : kv.1 = k
      · simp [List.map_cons, hk, dget_cons]
      · have hr : dhas rest k = true := by
          have := h
          simp [dhas, List.any_cons, hk] at this
          simpa [dhas] using this
        simpa [List.map_cons, hk, dget_cons] using ih hr

theorem dget_dset_self (d : Doc) (k : String) (v : JVal) :
    dget (dset d k v) k = some v := by
  unfold dset
  by_cases h : dhas d k
  · simpa [if_pos h] using dget_map_replace d k v h
  · have hnone : dget d k = none := by
      induction d with
      | nil => simp [dget]
      | cons kv rest ih =>
          have := h
          simp [dhas, List.any_cons] at this
          simp [dget_cons, this.1, ih (by simp [dhas, this.2])]
    simp [if_neg h, dget_append, hnone, dget_cons]

theorem dget_map_replace_ne (d : Doc) (k : String) (v : JVal) (k' : String)
    (h : k' ≠ k) :
    dget (d.map (fun kv => if kv.1 = k then (k, v) else kv)) k' =
      dget d k' := by
  induction d with
  | nil => simp
  | cons kv rest ih =>
      simp only [List.map_cons]
      by_cases hk : kv.1 = k
      · have h1 : ¬ (k = k') := fun hc => h hc.symm
        have h2 : ¬ (kv.1 = k') := by rw [hk]; exact h1
        rw [if_pos hk, dget_cons, dget_cons, if_neg h1, if_neg h2, ih]
      · rw [if_neg hk, dget_cons, dget_cons, ih]

theorem dget_dset_ne (d : Doc) (k : String) (v : JVal) (k' : String)
    (h : k' ≠ k) :
    dget (dset d k v) k' = dget d k' := by
  unfold dset
  by_cases hd : dhas d k
  · simpa [if_pos hd] using dget_map_replace_ne d k v k' h
  · simp only [if_neg hd]
    rw [dget_append]
    have h1 : ¬ (k = k') := fun hc => h hc.symm
    have h2 : dget [(k, v)] k' = none := by
      rw [dget_cons, if_neg h1]; rfl
    rw [h2]
    cases dget d k' <;> simp

theorem dget_dpop_ne (d : Doc) (k k' : String) (h : k' ≠ k) :
    dget (dpop d k) k' = dget d k' := by
  induction d with
  | nil => rfl
  | cons kv rest ih =>
      by_cases hk : kv.1 = k
      · have hne : ¬ (kv.1 = k') := by rw [hk]; exact fun hc => h hc.symm
        have e1 : dpop (kv :: rest) k = dpop rest k := by
          simp [dpop, List.filter_cons, hk]
        rw [e1, ih, dget_cons, if_neg hne]
      · have e1 : dpop (kv :: rest) k = kv :: dpop rest k := by
          simp [dpop, List.filter_cons, hk]
        rw [e1, dget_cons, dget_cons, ih]

theorem dget_none_of_not_mem_keys (d : Doc) (k : String)
    (h : k ∉ d.map Prod.fst) : dget d k = none := by
  induction d with
  | nil => rfl
  | cons kv rest ih =>
      rw [List.map_cons] at h
      rw [dget_cons,
        if_neg (fun hc => h (by rw [hc]; exact List.mem_cons_self _ _))]
      exact ih (fun hm => h (List.mem_cons_of_mem _ hm))

theorem dget_dupdate (e : Doc) : ∀ (d : Doc) (k : String),
    (e.map Prod.fst).Nodup →
    dget (dupdate d e) k =
      match dget e k with
      | some v => some v
      | none => dget d k := by
  induction e with
  | nil => intro d k _; rfl
  | cons kv rest ih =>
      intro d k hnd
      rw [List.map_cons, List.nodup_cons] at hnd
      have hstep : dupdate d (kv :: rest) =
          dupdate (dset d kv.1 kv.2) rest := rfl
      rw [hstep, ih _ k hnd.2]
      by_cases hk : kv.1 = k
      · subst hk
        have hrest : dget rest kv.1 = none :=
          dget_none_of_not_mem_keys _ _ hnd.1
        rw [hrest, dget_cons, if_pos rfl, dget_dset_self]
      · rw [dget_cons, if_neg hk]
        cases hr : dget rest k
        · rw [dget_dset_ne _ _ _ _ (fun hc => hk hc.symm)]
        · rfl

theorem nodupB_iff {α : Type} [DecidableEq α] (l : List α) :
    nodupB l = true ↔ l.Nodup := by
  induction l with
  | nil => simp [nodupB]
  | cons x xs ih =>
      simp [nodupB, List.nodup_cons, ih, List.contains_eq_any_beq,
        List.any_eq_true]

theorem newOid_inj (a b : Nat) (h : newOid a = newOid b) : a = b := by
  simpa [newOid, Int.ofNat_inj] using h

theorem vstart_eq_some (d : Doc) (s : Int) (h : vstart d = some s) :
    dget d "_start" = some (jint s) := by
  unfold vstart at h
  rcases hg : dget d "_start" with _ | v
  · rw [hg] at h; cases h
  · rw [hg] at h
    cases v with
    | jint s' => cases h; rfl
    | jnull => cases h
    | jstr _ => cases h
    | jlist _ => cases h
    | jbuf _ => cases h

theorem vstart_congr (d e : Doc) (h : dget d "_start" = dget e "_start") :
    vstart d = vstart e := by
  unfold vstart; rw [h]

theorem updFirst_split :
    ∀ (docs : List Doc) (td : Doc), td ∈ docs → (docs.map idOf).Nodup →
    ∃ l1 l2, docs = l1 ++ td :: l2 ∧
      ∀ v, updFirst docs (idOf td) v = l1 ++ dset td "_end" v :: l2 := by
  intro docs
  induction docs with
  | nil => intro td h; cases h
  | cons d rest ih =>
      intro td hmem hnd
      rw [List.map_cons, List.nodup_cons] at hnd
      rcases List.mem_cons.mp hmem with heq | hmem'
      · subst heq
        refine ⟨[], rest, rfl, fun v => ?_⟩
        show updFirst (td :: rest) (idOf td) v = dset td "_end" v :: rest
        simp only [updFirst]
        rw [if_pos (show dget td "_id" = idOf td from rfl)]
      · have hne : ¬ (dget d "_id" = idOf td) := by
          intro hc
          apply hnd.1
          show idOf d ∈ List.map idOf rest
          rw [show idOf d = idOf td from hc]
          exact List.mem_map_of_mem idOf hmem'
        obtain ⟨l1, l2, hsp, hup⟩ := ih td hmem' hnd.2
        refine ⟨d :: l1, l2, by rw [hsp]; rfl, fun v => ?_⟩
        show updFirst (d :: rest) (idOf td) v =
          d :: (l1 ++ dset td "_end" v :: l2)
        simp only [updFirst]
        rw [if_neg hne, hup v]

theorem chainB_cons_cons (x y : Doc) (l : List Doc) :
    chainB (x :: y :: l) =
      ((match vstart x, vstart y with
        | some s1, some s2 =>
          decide (s1 ≤ s2) && decide (dget x "_end" = some (jint s2))
        | _, _ => false) && chainB (y :: l)) := rfl

theorem chainB_tail (x : Doc) (l : List Doc) (h : chainB (x :: l) = true) :
    chainB l = true := by
  cases l with
  | nil => rfl
  | cons y ys =>
      rw [chainB_cons_cons] at h
      exact (Bool.and_eq_true _ _).mp h |>.2

theorem head_not_live (x y : Doc) (l : List Doc)
    (h : chainB (x :: y :: l) = true) : isLive x = false := by
  rw [chainB_cons_cons] at h
  have h1 := ((Bool.and_eq_true _ _).mp h).1
  rcases hv1 : vstart x with _ | s1 <;> rcases hv2 : vstart y with _ | s2 <;>
    rw [hv1, hv2] at h1
  · cases h1
  · cases h1
  · cases h1
  · have h2 := ((Bool.and_eq_true _ _).mp h1).2
    have h3 : dget x "_end" = some (jint s2) := of_decide_eq_true h2
    simp [isLive, h3]

theorem chainB_live_last (t : Doc) (hl : isLive t = true) :
    ∀ (A B : List Doc), chainB (A ++ t :: B) = true → B = [] := by
  intro A
  induction A with
  | nil =>
      intro B h
      cases B with
      | nil => rfl
      | cons b bs =>
          rw [List.nil_append] at h
          rw [head_not_live t b bs h] at hl
          cases hl
  | cons x xs ih =>
      intro B h
      exact ih B (chainB_tail _ _ h)

theorem chainB_filter_live :
    ∀ l : List Doc, chainB l = true → l ≠ [] →
    ∃ t, l.filter isLive = [t] ∧ isLive t = true ∧
      (vstart t).isSome = true ∧ t ∈ l := by
  intro l
  induction l with
  | nil => intro _ h; exact absurd rfl h
  | cons d rest ih =>
      intro h _
      cases rest with
      | nil =>
          have h2 := (Bool.and_eq_true _ _).mp h
          refine ⟨d, ?_, h2.2, h2.1, List.mem_cons_self _ _⟩
          simp [List.filter_cons, h2.2]
      | cons d2 rest2 =>
          have hld : isLive d = false := head_not_live d d2 rest2 h
          obtain ⟨t, hf, hl, hs, hm⟩ :=
            ih (chainB_tail _ _ h) (by simp)
          refine ⟨t, ?_, hl, hs, List.mem_cons_of_mem _ hm⟩
          simp [List.filter_cons, hld, hf]

theorem chainB_surgery (sb : Int) (t td' nd : Doc)
    (hv : vstart td' = vstart t)
    (he : dget td' "_end" = some (jint sb))
    (hle : ∀ s, vstart t = some s → s ≤ sb)
    (hvn : vstart nd = some sb)
    (hln : isLive nd = true) :
    ∀ xs : List Doc, chainB (xs ++ [t]) = true →
      chainB (xs ++ [td', nd]) = true := by
  intro xs
  induction xs with
  | nil =>
      intro h
      have h2 := (Bool.and_eq_true _ _).mp h
      obtain ⟨s0, hs0⟩ := Option.isSome_iff_exists.mp h2.1
      have hle0 : s0 ≤ sb := hle s0 hs0
      show chainB (td' :: nd :: []) = true
      rw [chainB_cons_cons, hv, hs0, hvn]
      have h3 : chainB [nd] = true := by
        have : (vstart nd).isSome = true := by rw [hvn]; rfl
        simp only [chainB]
        rw [this, hln]
        rfl
      simp [hle0, he, h3]
  | cons x xs' ih =>
      intro h
      cases hxs : xs' with
      | nil =>
          subst hxs
          rw [List.nil_append] at *
          have h2 := (Bool.and_eq_true _ _).mp
            (by rw [← chainB_cons_cons]; exact h)
          have h3 := ih h2.2
          show chainB (x :: td' :: [nd]) = true
          rw [chainB_cons_cons, hv]
          rw [List.nil_append] at h3
          simp only [h3, Bool.and_true]
          exact h2.1
      | cons y ys =>
          subst hxs
          have h2 := (Bool.and_eq_true _ _).mp
            (by rw [← chainB_cons_cons]; exact h)
          have h3 := ih h2.2
          show chainB (x :: (y :: ys ++ [td', nd])) = true
          have hcc : y :: ys ++ [td', nd] =
              y :: (ys ++ [td', nd]) := rfl
          rw [hcc, chainB_cons_cons]
          rw [List.cons_append] at h3
          simp only [h3, Bool.and_true]
          exact h2.1

theorem filter_live_versions (o : JVal) (docs : List Doc) :
    docs.filter (fun td => isLive td && decide (oidOf td = o)) =
      (versionsOf o docs).filter isLive := by
  induction docs with
  | nil => rfl
  | cons d rest _ =>
      by_cases ho : oidOf d = o
      · by_cases hl : isLive d
        · simp [versionsOf, List.filter_cons, ho, hl]
        · simp [versionsOf, List.filter_cons, ho, hl]
      · by_cases hl : isLive d
        · simp [versionsOf, List.filter_cons, ho, hl]
        · simp [versionsOf, List.filter_cons, ho, hl]

theorem nodup_snoc {α : Type} (l : List α) (x : α) (h1 : l.Nodup)
    (h2 : x ∉ l) : (l ++ [x]).Nodup := by
  rw [List.nodup_append]
  exact ⟨h1, List.nodup_singleton x,
    fun a ha hax => h2 (by rwa [List.mem_singleton.mp hax] at ha)⟩

theorem storeInv_snoc (docs : List Doc) (n : Nat) (nd : Doc)
    (hFresh : ∀ d ∈ docs, ∃ k, k < n ∧ idOf d = some (newOid k))
    (hNd : (docs.map idOf).Nodup)
    (hndid : idOf nd = some (newOid n))
    (hChain : ∀ o2 ∈ (docs ++ [nd]).map oidOf,
      chainB (versionsOf o2 (docs ++ [nd])) = true) :
    storeInvB ⟨docs ++ [nd], n + 1⟩ = true := by
  have h1 : idsFreshB ⟨docs ++ [nd], n + 1⟩ = true := by
    simp only [idsFreshB, List.all_eq_true]
    intro d hd
    rw [List.any_eq_true]
    rcases List.mem_append.mp hd with hd' | hd'
    · obtain ⟨k, hk, hid⟩ := hFresh d hd'
      exact ⟨k, List.mem_range.mpr (by omega), by simp [hid]⟩
    · have : d = nd := List.mem_singleton.mp hd'
      subst this
      exact ⟨n, List.mem_range.mpr (by omega), by simp [hndid]⟩
  have h2 : nodupB ((docs ++ [nd]).map idOf) = true := by
    rw [nodupB_iff]
    simp only [List.map_append, List.map_cons, List.map_nil]
    refine nodup_snoc _ _ hNd ?_
    intro hmem
    obtain ⟨d, hd, hid⟩ := List.mem_map.mp hmem
    obtain ⟨k, hk, hid'⟩ := hFresh d hd
    rw [hndid] at hid
    rw [hid'] at hid
    have : k = n := newOid_inj k n (Option.some.inj hid)
    omega
  have h3 : chainAllB ⟨docs ++ [nd], n + 1⟩ = true := by
    simp only [chainAllB, List.all_eq_true]
    exact fun o2 ho2 => hChain o2 ho2
  simp only [storeInvB, Bool.and_eq_true]
  exact ⟨⟨h1, h2⟩, h3⟩

/-! ## The claims -/

/-- C3, amended: every object prepared for writing carries
`_hash = jsonhash(obj)` computed over the *entire* object as it was
passed in — underscore fields such as `_oid` and any pre-existing
`_start`/`_mtime` included (and before the `_mtime → _start` rename and
the `_start` default are applied) — not over the non-underscore fields
only. -/
theorem prep_hash_is_jsonhash_of_whole_object (f : String → String)
    (obj : Doc) (mtime : Int) (out : Doc)
    (h : prepObject f obj mtime = .ok out) :
    dget out "_hash" = some (jstr (jsonhashDoc f obj)) := by
  have hm : ∀ d : Doc, dget (prepMtime d) "_hash" = dget d "_hash" := by
    intro d
    unfold prepMtime
    split
    · rw [dget_dset_ne _ _ _ _ (by decide), dget_dpop_ne _ _ _ (by decide)]
    · rfl
  have hs : ∀ (d : Doc) (m : Int),
      dget (prepStart d m) "_hash" = dget d "_hash" := by
    intro d m
    unfold prepStart
    split
    · rw [dget_dset_ne _ _ _ _ (by decide)]
    · rfl
  unfold prepObject at h
  split at h
  · cases h
  · unfold prepCheck at h
    split at h
    · cases h
    · injection h with h
      subst h
      rw [hs, hm, dget_dset_self]

/-- C10: `save_objects` raises `ValueError('owner, cube, objects
required')` on an empty objects list — the same guard that rejects a
missing owner or cube — instead of succeeding as a no-op. -/
theorem save_objects_rejects_empty_list (f : String → String)
    (owner cube : String) (objects : List Doc) (m : Int) (st : Store) :
    saveObjects f owner cube [] m st =
      .error "owner, cube, objects required" ∧
    saveObjects f "" cube objects m st =
      .error "owner, cube, objects required" ∧
    saveObjects f owner "" objects m st =
      .error "owner, cube, objects required" := by
  refine ⟨?_, ?_, ?_⟩ <;> simp [saveObjects] <;> rfl

/-- C8: SQL generation fails immediately — producing no query — with the
spec's `ConfigError` (the `raise ValueError("Must define db, table, _oid
in config!")` of `_generate_sql`) whenever any of `db`, `table`, `_oid`
is missing (absent or empty) from the configuration. -/
theorem generate_sql_missing_config_fails (db table oidCol : Option String)
    (fields : List (String × SqlField)) (oids : List JVal) (sort : Bool)
    (h : optTruthy db = false ∨ optTruthy table = false ∨
      optTruthy oidCol = false) :
    generateSql db table oidCol fields oids sort =
      .error (.configError "Must define db, table, _oid in config!") := by
  rcases h with h | h | h <;> simp [generateSql, h]

/-- Witness for C8: the error at a concrete configuration with `_oid`
missing. -/
theorem generate_sql_missing_config_fails_witness :
    generateSql (some "dbA") (some "tblB") none
      [("f", ⟨none, none⟩)] [jint 3] true =
      .error (.configError "Must define db, table, _oid in config!") :=
  generate_sql_missing_config_fails (some "dbA") (some "tblB") none
    [("f", ⟨none, none⟩)] [jint 3] true (Or.inr (Or.inr rfl))

/-- C9, counterexample: with no prior state (`get_last_field('_oid')`
returns `None`) and a source holding oids 1, 2, 3, `get_new_oids`
returns the empty list, not all the source's oids — and the code consults
no configuration that could make it do otherwise. -/
theorem get_new_oids_no_prior_state_cex :
    getNewOids [jint 1, jint 2, jint 3] jnull = [] ∧
    ([] : List JVal) ≠ [jint 1, jint 2, jint 3] := by
  exact ⟨rfl, by decide⟩

/-- C9, amended: whenever the maximum previously-stored oid is `None`
(or any falsy value), `get_new_oids` returns the empty list,
unconditionally. -/
theorem get_new_oids_empty_when_no_prior_max (source : List JVal)
    (lastId : JVal) (h : pyTruthy lastId = false) :
    getNewOids source lastId = [] := by
  simp [getNewOids, h]

/-- Witness for C9's amended theorem at a concrete nonempty source. -/
theorem get_new_oids_empty_when_no_prior_max_witness :
    pyTruthy jnull = false ∧
    getNewOids [jint 1, jint 2, jint 3] jnull = [] :=
  ⟨rfl, get_new_oids_empty_when_no_prior_max [jint 1, jint 2, jint 3]
    jnull rfl⟩

/-- C6: in `_delta_force`, the truthy-scalar branch rebinds
`force = [force]` but never assigns `oids`, so a truthy scalar `force`
yields `sorted(set([]))` — the empty list — whatever the configuration
and whatever the source holds, where the spec's policy table promises the
singleton list of that scalar. -/
theorem delta_force_truthy_scalar_yields_no_oids (v : JVal)
    (cfgF : Force) (dn dm : Bool) (sqlOids newOids changedOids : List JVal)
    (h : pyTruthy v = true) :
    deltaForce (.fscalar v) cfgF dn dm sqlOids newOids changedOids = [] := by
  simp [deltaForce, forceTruthy, h, sortedSet, dedupJ, dedupGo, sortB]

/-- Witness for C6 at the failing input `force = 5` (nonempty query
results, so the emptiness comes from the dead branch, not from the
source). -/
theorem delta_force_truthy_scalar_yields_no_oids_witness :
    pyTruthy (jint 5) = true ∧
    deltaForce (.fscalar (jint 5)) .fnone true true
      [jint 7] [jint 8] [jint 9] = [] :=
  ⟨by decide, delta_force_truthy_scalar_yields_no_oids (jint 5) .fnone
    true true [jint 7] [jint 8] [jint 9] (by decide)⟩

/-- C5, counterexample: on scenario S3 (current object
`{_oid: 1, status: "closed", _start: 1000, _end: null}`, change-log
`[(500, "status", "open", "closed")]`) every version the replay returns
has `_start = 500`, and none has `_end = 1000`, whereas the claim's two
expected versions have `_start = 1000` (the closed one) and
`_end = 1000` (the open one). -/
theorem backwards_replay_s3_differs_from_claim :
    ((activityImportDoc none
      [("_oid", jint 1), ("status", jstr "closed"), ("_start", jint 1000),
        ("_end", jnull)]
      [(500, "status", jstr "open", jstr "closed")]).all (fun d =>
        dget d "_start" = some (jint 500) ∧
        dget d "_end" ≠ some (jint 1000))) = true := by decide

/-- C5, amended (what `_activity_import_doc` actually returns on S3, per
its backdating of the current version and the `[when, when)` placeholder
interval it leaves on the reconstructed oldest version): the two versions
`{_oid: 1, status: "closed", _start: 500, _end: null}` and
`{_oid: 1, status: "open", _start: 500, _end: 500}`, current first. -/
theorem backwards_replay_s3_actual_versions :
    activityImportDoc none
      [("_oid", jint 1), ("status", jstr "closed"), ("_start", jint 1000),
        ("_end", jnull)]
      [(500, "status", jstr "open", jstr "closed")] =
      [[("_oid", jint 1), ("status", jstr "closed"), ("_start", jint 500),
        ("_end", jnull)],
       [("_oid", jint 1), ("status", jstr "open"), ("_start", jint 500),
        ("_end", jint 500)]] := by decide

/-- C3, counterexample: a version written by the snapshot writer whose
stored `_hash` differs from the jsonhash of its non-underscore fields,
because `_prep_object` hashed the whole object (underscore fields such
as `_oid` and `_start` included). -/
theorem stored_hash_covers_underscore_fields_cex :
    (saveObjects sha1x "o" "c"
      [[("_oid", jint 1), ("x", jint 1), ("_start", jint 5)]] 0
      ⟨[], 0⟩).map (fun r =>
      (r.1.docs.length,
        r.1.docs.all (fun d =>
          dget d "_hash" ≠
            some (jstr (jsonhashDoc sha1x (nonUFields d)))))) =
      .ok (1, true) := by decide

/-- Witness for C3's amended theorem at a concrete object. -/
theorem prep_hash_is_jsonhash_of_whole_object_witness :
    dget [("_oid", jint 1), ("x", jint 1),
      ("_hash", jstr (jsonhashDoc sha1x [("_oid", jint 1), ("x", jint 1)])),
      ("_start", jint 42)] "_hash" =
      some (jstr (jsonhashDoc sha1x [("_oid", jint 1), ("x", jint 1)])) :=
  prep_hash_is_jsonhash_of_whole_object sha1x
    [("_oid", jint 1), ("x", jint 1)] 42
    [("_oid", jint 1), ("x", jint 1),
      ("_hash", jstr (jsonhashDoc sha1x [("_oid", jint 1), ("x", jint 1)])),
      ("_start", jint 42)] (by decide)

theorem jsonhashList_eq_map (f : String → String) (l : List JVal) :
    jsonhashList f l = l.map (jsonhash f) := by
  induction l with
  | nil => rfl
  | cons x xs ih => simp [jsonhashList, ih]

theorem reprStr_inj (a b : String) (h : reprStr a = reprStr b) : a = b := by
  have hd := congrArg String.data h
  simp only [reprStr, String.data_append, List.append_assoc] at hd
  exact String.ext (List.append_cancel_right (List.append_cancel_left hd))

theorem dedupKeysLast_id (l : List (String × String))
    (h : (l.map Prod.fst).Nodup) : dedupKeysLast l = l := by
  induction l with
  | nil => rfl
  | cons kv rest ih =>
      rw [List.map_cons, List.nodup_cons] at h
      have h2 : rest.any (fun kv2 => kv2.1 = kv.1) = false := by
        rw [List.any_eq_false]
        intro x hx
        simp only [decide_eq_true_eq]
        intro hc
        exact h.1 (hc ▸ List.mem_map_of_mem Prod.fst hx)
      simp [dedupKeysLast, h2, ih h.2]

/-- C4, amended: `jsonhash` is order-insensitive on *both* sides: a list
hashes as the sorted tuple of its element hashes (so any two permutations
of a list hash identically — order-sensitivity fails), and a dict with
distinct keys hashes independently of its key order. -/
theorem jsonhash_order_insensitive :
    (∀ (f : String → String) (l1 l2 : List JVal), l1.Perm l2 →
      jsonhash f (jlist l1) = jsonhash f (jlist l2)) ∧
    (∀ (f : String → String) (d1 d2 : Doc), (d1.map Prod.fst).Nodup →
      d1.Perm d2 → jsonhashDoc f d1 = jsonhashDoc f d2) := by
  constructor
  · intro f l1 l2 hp
    simp only [jsonhash, jsonhashList_eq_map]
    rw [sortB_congr_perm strle strle_total strle_antisymm strle_trans
      (hp.map (jsonhash f))]
  · intro f d1 d2 hnd hp
    have hnodup : ∀ d : Doc, (d.map Prod.fst).Nodup →
        ((d.map (fun kv =>
          (jsonhash f (jstr kv.1), jsonhash f kv.2))).map Prod.fst).Nodup := by
      intro d hd
      rw [List.map_map]
      have he : (Prod.fst ∘ fun kv : String × JVal =>
          (jsonhash f (jstr kv.1), jsonhash f kv.2)) =
          (fun s => reprStr s) ∘ Prod.fst := by
        funext kv
        simp [jsonhash, pyRepr, reprStr]
      rw [he, ← List.map_map]
      exact hd.map (fun a b hab => reprStr_inj a b hab)
    have hnd2 : (d2.map Prod.fst).Nodup := ((hp.map Prod.fst).nodup_iff).mp hnd
    unfold jsonhashDoc
    rw [dedupKeysLast_id _ (hnodup d1 hnd),
      dedupKeysLast_id _ (hnodup d2 hnd2),
      sortB_congr_perm strle strle_total strle_antisymm strle_trans
        ((hp.map _).map reprStrPair)]

/-- Witness for C4's amended theorem at concrete permutations. -/
theorem jsonhash_order_insensitive_witness :
    jsonhash sha1x (jlist [jint 1, jint 2]) =
      jsonhash sha1x (jlist [jint 2, jint 1]) ∧
    jsonhashDoc sha1x [("a", jint 1), ("b", jint 2)] =
      jsonhashDoc sha1x [("b", jint 2), ("a", jint 1)] :=
  ⟨jsonhash_order_insensitive.1 sha1x _ _
      (List.Perm.swap (jint 2) (jint 1) []),
   jsonhash_order_insensitive.2 sha1x _ _ (by decide)
      (List.Perm.swap ("b", jint 2) ("a", jint 1) [])⟩

/-- C4, counterexample: `jsonhash` sorts the element hashes of a list, so
the two distinct permutations `[1, 2]` and `[2, 1]` — unequal
element-wise — hash identically, against the claim's order-sensitivity. -/
theorem jsonhash_list_order_insensitive_cex :
    jsonhash sha1x (jlist [jint 1, jint 2]) =
      jsonhash sha1x (jlist [jint 2, jint 1]) ∧
    [jint 1, jint 2] ≠ [jint 2, jint 1] := by
  exact ⟨by decide, by decide⟩

/-- C7, counterexample: with a field schema whose `convert` increments an
`int` field, one normalization pass of `{f: 3}` yields `{f: 4}` but a
second pass yields `{f: 5}`: `normalize(normalize(row)) ≠
normalize(row)`. -/
theorem normalize_convert_breaks_idempotence :
    normalizeRow schConv [("f", jint 3)] = .ok [("f", jint 4)] ∧
    normalizeRow schConv [("f", jint 4)] = .ok [("f", jint 5)] ∧
    ([("f", jint 4)] : Doc) ≠ [("f", jint 5)] := by
  refine ⟨by decide, by decide, by decide⟩

theorem toDigitsCore_ne_nil (b : Nat) : ∀ (fuel n : Nat) (ds : List Char),
    (fuel ≠ 0 ∨ ds ≠ []) → Nat.toDigitsCore b fuel n ds ≠ [] := by
  intro fuel
  induction fuel with
  | zero =>
      intro n ds h
      rcases h with h | h
      · exact absurd rfl h
      · simpa [Nat.toDigitsCore] using h
  | succ f ih =>
      intro n ds h
      rw [Nat.toDigitsCore]
      split
      · exact List.cons_ne_nil _ _
      · exact ih (n / b) _ (Or.inr (List.cons_ne_nil _ _))

theorem nat_repr_ne_empty (n : Nat) : Nat.repr n ≠ "" := by
  unfold Nat.repr
  intro hc
  have h2 : Nat.toDigits 10 n = [] := by
    have := congrArg String.data hc
    simpa [List.asString] using this
  exact toDigitsCore_ne_nil 10 (n + 1) n [] (Or.inl (by omega))
    (by simpa [Nat.toDigits] using h2)

theorem int_toString_ne_empty (n : Int) : toString n ≠ "" := by
  show Int.repr n ≠ ""
  cases n with
  | ofNat m => exact nat_repr_ne_empty m
  | negSucc m =>
      intro hc
      have := congrArg String.data hc
      simp [Int.repr, String.data_append] at this

theorem pyStr_ne_empty (v : JVal) (h1 : v ≠ jstr "") (h2 : v ≠ jbuf "") :
    pyStr v ≠ "" := by
  cases v with
  | jnull => decide
  | jint n => exact int_toString_ne_empty n
  | jstr s => exact fun hc => h1 (by rw [show s = "" from hc])
  | jbuf s => exact fun hc => h2 (by rw [show s = "" from hc])
  | jlist xs =>
      intro hc
      have := congrArg String.data hc
      simp [pyStr, String.data_append] at this

/-- The shape of a `_type_single` result under type tag `t`: null, or a
value already of the target type (a nonempty string when the target is
textual). -/
def tsShape (t : Option TypeTag) (w : JVal) : Prop :=
  w = jnull ∨
    match t with
    | some .tInt => ∃ n, w = jint n
    | _ => ∃ s, w = jstr s ∧ s ≠ ""

theorem typeSingle_shape (t : Option TypeTag) (v w : JVal)
    (hv : v ≠ jbuf "") (h : typeSingle t v = .ok w) : tsShape t w := by
  unfold typeSingle at h
  split at h
  · injection h with h; exact Or.inl h.symm
  · next hnn =>
    split at h
    · injection h with h; exact Or.inl h.symm
    · next hne =>
      match t with
      | none =>
          injection h with h
          exact Or.inr ⟨pyStr v, h.symm, pyStr_ne_empty v hne hv⟩
      | some tt =>
          simp only at h
          split at h
          · next hin =>
            injection h with h
            rw [← h]
            cases tt with
            | tInt =>
                cases v with
                | jint n => exact Or.inr ⟨n, rfl⟩
                | jnull => simp [isinst] at hin
                | jstr s => simp [isinst] at hin
                | jlist l => simp [isinst] at hin
                | jbuf s => simp [isinst] at hin
            | tStr =>
                cases v with
                | jstr s => exact Or.inr ⟨s, rfl, fun hc => hne (by rw [hc])⟩
                | jnull => simp [isinst] at hin
                | jint n => simp [isinst] at hin
                | jlist l => simp [isinst] at hin
                | jbuf s => simp [isinst] at hin
          · cases tt with
            | tInt =>
                cases v with
                | jstr s =>
                    simp only [tcast] at h
                    split at h
                    · injection h with h
                      exact Or.inr ⟨_, h.symm⟩
                    · cases h
                | jint n =>
                    simp only [tcast] at h
                    injection h with h
                    exact Or.inr ⟨n, h.symm⟩
                | jnull => simp only [tcast] at h; cases h
                | jlist l => simp only [tcast] at h; cases h
                | jbuf s => simp only [tcast] at h; cases h
            | tStr =>
                simp only [tcast] at h
                injection h with h
                exact Or.inr ⟨pyStr v, h.symm, pyStr_ne_empty v hne hv⟩

theorem typeSingle_fix (t : Option TypeTag) (w : JVal) (hs : tsShape t w) :
    typeSingle t w = .ok w := by
  rcases hs with h | h
  · rw [h]; rfl
  · cases t with
    | none =>
        obtain ⟨s, rfl, hne⟩ := h
        simp [typeSingle, hne, pyStr]
    | some tt =>
        cases tt with
        | tInt =>
            obtain ⟨n, rfl⟩ := h
            simp [typeSingle, isinst]
        | tStr =>
            obtain ⟨s, rfl, hne⟩ := h
            simp [typeSingle, hne, isinst]

theorem mem_insB {α : Type} (le : α → α → Bool) (a x : α) :
    ∀ l : List α, x ∈ insB le a l → x = a ∨ x ∈ l := by
  intro l
  induction l with
  | nil => intro h; simpa [insB] using h
  | cons y ys ih =>
      intro h
      by_cases hc : le a y = true
      · simpa [insB, hc] using h
      · rw [insB, if_neg hc] at h
        rcases List.mem_cons.mp h with h | h
        · exact Or.inr (h ▸ List.mem_cons_self y ys)
        · rcases ih h with h | h
          · exact Or.inl h
          · exact Or.inr (List.mem_cons_of_mem y h)

theorem mem_sortB {α : Type} (le : α → α → Bool) (x : α) :
    ∀ l : List α, x ∈ sortB le l → x ∈ l := by
  intro l
  induction l with
  | nil => intro h; simp [sortB] at h
  | cons y ys ih =>
      intro h
      rcases mem_insB le y x (sortB le ys) (by simpa [sortB] using h)
        with h | h
      · exact h ▸ List.mem_cons_self y ys
      · exact List.mem_cons_of_mem y (ih h)

theorem typeSingleList_shape (t : Option TypeTag) :
    ∀ (xs ys : List JVal), (∀ x ∈ xs, x ≠ jbuf "") →
      typeSingleList t xs = .ok ys → ∀ y ∈ ys, tsShape t y := by
  intro xs
  induction xs with
  | nil =>
      intro ys _ h
      injection h with h
      subst h
      intro y hy
      cases hy
  | cons x xs ih =>
      intro ys hb h
      rw [typeSingleList] at h
      cases h1 : typeSingle t x with
      | error e => rw [h1] at h; cases h
      | ok w =>
          rw [h1] at h
          cases h2 : typeSingleList t xs with
          | error e => rw [h2] at h; cases h
          | ok ws =>
              rw [h2] at h
              injection h with h
              subst h
              intro y hy
              rcases List.mem_cons.mp hy with hy | hy
              · exact hy ▸ typeSingle_shape t x w
                  (hb x (List.mem_cons_self x xs)) h1
              · exact ih ws (fun z hz => hb z (List.mem_cons_of_mem x hz))
                  h2 y hy

theorem typeSingleList_fix (t : Option TypeTag) :
    ∀ l : List JVal, (∀ y ∈ l, tsShape t y) →
      typeSingleList t l = .ok l := by
  intro l
  induction l with
  | nil => intro _; rfl
  | cons y ys ih =>
      intro hs
      rw [typeSingleList, typeSingle_fix t y (hs y (List.mem_cons_self y ys)),
        ih (fun z hz => hs z (List.mem_cons_of_mem y hz))]
      rfl

theorem typeContainer_idem (t : Option TypeTag) (v w : JVal)
    (hbe : ∀ xs, v = jlist xs → ∀ x ∈ xs, x ≠ jbuf "")
    (h : typeContainer t v = .ok w) : typeContainer t w = .ok w := by
  unfold typeContainer at h
  split at h
  · injection h with h
    subst h
    rfl
  · next hnn =>
    match v, h with
    | jlist xs, h =>
        simp only [] at h
        cases hys : typeSingleList t xs with
        | error e => rw [hys] at h; cases h
        | ok ys =>
            rw [hys] at h
            injection h with h
            subst h
            have hsh : ∀ y ∈ sortB jle ys, tsShape t y := fun y hy =>
              typeSingleList_shape t xs ys (hbe xs rfl) hys y
                (mem_sortB jle y ys hy)
            unfold typeContainer
            rw [if_neg (by simp)]
            simp only []
            rw [typeSingleList_fix t _ hsh]
            have hsorted : sortB jle (sortB jle ys) = sortB jle ys :=
              sortB_of_sortedB jle _ (sortedB_sortB jle jle_total ys)
            simp [hsorted]

theorem unwrap_not_buf (v : JVal) : ∀ s, unwrap v ≠ jbuf s := by
  intro s
  cases v with
  | jbuf b =>
      simp only [unwrap]
      split <;> simp
  | jnull => simp [unwrap]
  | jint n => simp [unwrap]
  | jstr t => simp [unwrap]
  | jlist l => simp [unwrap]

theorem unwrap_list_elems (v : JVal)
    (hbe : ∀ xs, v = jlist xs → ∀ x ∈ xs, x ≠ jbuf "") :
    ∀ xs, unwrap v = jlist xs → ∀ x ∈ xs, x ≠ jbuf "" := by
  cases v with
  | jlist l =>
      intro xs h
      rw [show unwrap (jlist l) = jlist l from rfl] at h
      injection h with h
      exact h ▸ hbe l rfl
  | jbuf b =>
      intro xs h
      simp only [unwrap] at h
      split at h
      · cases h
      · injection h with h
        subst h
        intro x hx
        rcases List.mem_map.mp hx with ⟨s, _, rfl⟩
        simp
  | jnull => intro xs h; cases h
  | jint n => intro xs h; cases h
  | jstr s => intro xs h; cases h

theorem convertF_none (fd : FieldDef) (v : JVal)
    (h : fd.convert = none) : convertF fd v = v := by
  unfold convertF
  split
  · next h0 => rw [h0]
  · rw [h]

theorem normalizeContainer_out (fd : FieldDef) (v v2 : JVal)
    (h : normalizeContainer fd v = .ok v2) :
    v2 = jnull ∨ v2 = jlist [v] ∨ v2 = v := by
  unfold normalizeContainer at h
  split at h
  · injection h with h
    rw [← h]
    split
    · exact Or.inr (Or.inl rfl)
    · exact Or.inl rfl
  · split at h
    · cases h
    · injection h with h
      exact Or.inr (Or.inr h.symm)

theorem normalizeField_idem (fd : FieldDef) (hc : fd.convert = none)
    (v w : JVal)
    (hbe : ∀ xs, v = jlist xs → ∀ x ∈ xs, x ≠ jbuf "")
    (h : normalizeField fd v = .ok w) :
    normalizeField fd w = .ok w := by
  unfold normalizeField at h ⊢
  cases h2 : normalizeContainer fd (unwrap v) with
  | error e => rw [h2] at h; cases h
  | ok v2 =>
      rw [h2] at h
      change typecast fd (convertF fd v2) = .ok w at h
      rw [convertF_none fd v2 hc] at h
      have hbe2 : ∀ xs, v2 = jlist xs → ∀ x ∈ xs, x ≠ jbuf "" := by
        rcases normalizeContainer_out fd (unwrap v) v2 h2 with h3 | h3 | h3
        · intro xs hxs; rw [h3] at hxs; cases hxs
        · intro xs hxs
          rw [h3] at hxs
          injection hxs with hxs
          subst hxs
          intro x hx
          rcases List.mem_singleton.mp hx with rfl
          exact unwrap_not_buf v ""
        · exact h3 ▸ unwrap_list_elems v hbe
      have hv2nb : v2 ≠ jbuf "" := by
        rcases normalizeContainer_out fd (unwrap v) v2 h2 with h3 | h3 | h3
        · rw [h3]; simp
        · rw [h3]; simp
        · rw [h3]; exact unwrap_not_buf v ""
      unfold typecast at h
      by_cases hcont : fd.container = true
      · rw [if_pos hcont] at h
        have hlist : ∃ l, w = jlist l := by
          unfold typeContainer at h
          split at h
          · injection h with h; exact ⟨[], h.symm⟩
          · match v2, h with
            | jlist xs, h =>
                simp only [] at h
                cases hys : typeSingleList fd.type xs with
                | error e => rw [hys] at h; cases h
                | ok ys =>
                    rw [hys] at h
                    injection h with h
                    exact ⟨_, h.symm⟩
        obtain ⟨l, rfl⟩ := hlist
        have hb : normalizeContainer fd (jlist l) = .ok (jlist l) := by
          simp [normalizeContainer, hcont, isListV]
        rw [show unwrap (jlist l) = jlist l from rfl, hb]
        change typecast fd (convertF fd (jlist l)) = _
        rw [convertF_none fd _ hc]
        unfold typecast
        rw [if_pos hcont]
        exact typeContainer_idem fd.type v2 (jlist l) hbe2 h
      · rw [if_neg hcont] at h
        have hsh := typeSingle_shape fd.type v2 w hv2nb h
        have hscs : w = jnull ∨ (∃ n, w = jint n) ∨ ∃ s, w = jstr s := by
          rcases hsh with h3 | h3
          · exact Or.inl h3
          · rcases htt : fd.type with _ | tt
            · rw [htt] at h3
              obtain ⟨s, hs, _⟩ := h3
              exact Or.inr (Or.inr ⟨s, hs⟩)
            · rw [htt] at h3
              cases tt with
              | tInt =>
                  obtain ⟨n, hn⟩ := h3
                  exact Or.inr (Or.inl ⟨n, hn⟩)
              | tStr =>
                  obtain ⟨s, hs, _⟩ := h3
                  exact Or.inr (Or.inr ⟨s, hs⟩)
        have hnl : ∀ l, w ≠ jlist l := by
          rcases hscs with rfl | ⟨n, rfl⟩ | ⟨s, rfl⟩ <;> simp
        have hnb : ∀ s, w ≠ jbuf s := by
          rcases hscs with rfl | ⟨n, rfl⟩ | ⟨s, rfl⟩ <;> simp
        have hu : unwrap w = w := by
          cases w with
          | jbuf b => exact absurd rfl (hnb b)
          | jnull => rfl
          | jint n => rfl
          | jstr s => rfl
          | jlist l => rfl
        have hb : normalizeContainer fd w = .ok w := by
          unfold normalizeContainer
          have hil : isListV w = false := by
            cases w with
            | jlist l => exact absurd rfl (hnl l)
            | jnull => rfl
            | jint n => rfl
            | jstr s => rfl
            | jbuf b => rfl
          rw [hil]
          simp [hcont]
        rw [hu, hb]
        change typecast fd (convertF fd w) = _
        rw [convertF_none fd _ hc]
        unfold typecast
        rw [if_neg hcont]
        exact typeSingle_fix fd.type w hsh

theorem except_bind_ok {ε α β : Type} (a : α) (f : α → Except ε β) :
    (Except.ok a >>= f : Except ε β) = f a := rfl

theorem except_bind_error {ε α β : Type} (e : ε) (f : α → Except ε β) :
    (Except.error e >>= f : Except ε β) = Except.error e := rfl

/-- C7, amended: the per-field pipeline is idempotent for field schemas
that define no `convert` function, on rows whose list values carry no
empty `buffer` blob (a nested empty buffer renders to the empty string
on the first pass and to null on the second, in the source as well).
An arbitrary `convert` — applied on every pass — breaks idempotence, as
the counterexample shows. -/
theorem normalize_idempotent_without_convert (schema : String → FieldDef)
    (hconv : ∀ fld, (schema fld).convert = none) (row out : Doc)
    (hbuf : ∀ kv ∈ row, ∀ xs, kv.2 = jlist xs → ∀ x ∈ xs, x ≠ jbuf "")
    (h : normalizeRow schema row = .ok out) :
    normalizeRow schema out = .ok out := by
  induction row generalizing out with
  | nil =>
      injection h with h
      subst h
      rfl
  | cons kv rest ih =>
      rw [normalizeRow] at h
      cases h1 : normalizeField (schema kv.1) kv.2 with
      | error e =>
          rw [h1, except_bind_error] at h
          cases h
      | ok v =>
          rw [h1, except_bind_ok] at h
          cases h2 : normalizeRow schema rest with
          | error e =>
              rw [h2, except_bind_error] at h
              cases h
          | ok rest2 =>
              rw [h2, except_bind_ok] at h
              have hout : (kv.1, v) :: rest2 = out := Except.ok.inj h
              subst hout
              have hf : normalizeField (schema kv.1) v = .ok v :=
                normalizeField_idem (schema kv.1) (hconv kv.1) kv.2 v
                  (hbuf kv (List.mem_cons_self kv rest)) h1
              have hr : normalizeRow schema rest2 = .ok rest2 :=
                ih rest2
                  (fun kv2 hkv2 => hbuf kv2 (List.mem_cons_of_mem kv hkv2))
                  h2
              rw [normalizeRow, hf, except_bind_ok, hr, except_bind_ok]
              rfl

/-- Witness for C7's amended theorem: a convert-free `int` schema on the
row `{f: "7", g: ""}` normalizes to `{f: 7, g: null}`, and normalizing
again returns it unchanged. -/
theorem normalize_idempotent_without_convert_witness :
    normalizeRow (fun _ => ⟨false, some .tInt, none⟩)
      [("f", jstr "7"), ("g", jstr "")] =
      .ok [("f", jint 7), ("g", jnull)] ∧
    normalizeRow (fun _ => ⟨false, some .tInt, none⟩)
      [("f", jint 7), ("g", jnull)] =
      .ok [("f", jint 7), ("g", jnull)] :=
  ⟨by decide,
   normalize_idempotent_without_convert (fun _ => ⟨false, some .tInt, none⟩)
    (fun _ => rfl) [("f", jstr "7"), ("g", jstr "")]
    [("f", jint 7), ("g", jnull)]
    (by
      intro kv2 hkv2 xs hxs
      cases hkv2 with
      | head => cases hxs
      | tail _ h2 =>
          cases h2 with
          | head => cases hxs
          | tail _ h3 => cases h3)
    (by decide)⟩

/-- C2, counterexample: one legitimate ingest — an activity-replay style
object carrying explicit validity bounds `{_oid: 1, x: 1, _start: 0,
_end: 500}` saved into an empty store — leaves oid 1 with one stored
version and no live version at all, so "exactly one live version with
`_end = null`" does not survive arbitrary ingest sequences. -/
theorem ingest_sequence_breaks_interval_invariant_cex :
    (saveObjects sha1x "o" "c"
      [[("_oid", jint 1), ("x", jint 1), ("_start", jint 0),
        ("_end", jint 500)]] 0 ⟨[], 0⟩).map (fun r =>
      ((versionsOf (jint 1) r.1.docs).length,
        ((versionsOf (jint 1) r.1.docs).filter isLive).length)) =
      .ok (1, 0) ∧ (1, 0) ≠ (1, 1) := by
  exact ⟨by decide, by decide⟩

theorem foldl_snapStep_empty (tds : List Doc) (docs : List Doc) (w : Nat) :
    tds.foldl snapStep (docs, [], w) = (docs, [], w) := by
  induction tds with
  | nil => rfl
  | cons t rest ih => simpa [snapStep, amGet] using ih

/-- C1, amended: the snapshot write is a no-op — no version closed, no
version inserted, the store unchanged — when every key-value pair of the
prepped incoming object *other than `_start`* (its non-underscore fields
together with `_oid` and the `_hash` that `_prep_object` computed over
the whole object) is present in the stored live version of its oid.
Equality of the non-underscore fields alone does not suffice, because the
compared items include `_hash`, which covers `_oid` and any
`_start`/`_mtime` the object carried when it was hashed. -/
theorem snapshot_noop_on_full_item_match (st : Store) (doc : Doc)
    (_hstart : dhas doc "_start" = true)
    (_hnoend : dhas doc "_end" = false)
    (hlive : st.docs.any (fun td => isLive td && oidOf td = oidOf doc) =
      true)
    (hmatch : ∀ td ∈ st.docs, isLive td = true → oidOf td = oidOf doc →
      ∀ kv ∈ dpop doc "_start", ditem td kv = true) :
    saveAndSnapshot st [doc] = (st, 0) := by
  have hdm : List.foldl (fun m d => amSet m (oidOf d) d) [] [doc] =
      [(oidOf doc, doc)] := by
    simp [List.foldl, amSet]
  have hp : ∀ td, (isLive td && (amGet [(oidOf doc, doc)]
      (oidOf td)).isSome) = (isLive td && oidOf td = oidOf doc) := by
    intro td
    by_cases ho : oidOf doc = oidOf td
    · simp [amGet, ho]
    · have ho2 : ¬ (oidOf td = oidOf doc) := fun hc => ho hc.symm
      simp [amGet, ho, ho2]
  unfold saveAndSnapshot
  rw [hdm]
  simp only [List.filter_congr (fun td _ => hp td)]
  rcases hfe : st.docs.filter
      (fun td => isLive td && oidOf td = oidOf doc) with _ | ⟨t, rest⟩
  · exfalso
    rw [List.any_eq_true] at hlive
    obtain ⟨td, htdmem, htd⟩ := hlive
    have : td ∈ st.docs.filter
        (fun td => isLive td && oidOf td = oidOf doc) :=
      List.mem_filter.mpr ⟨htdmem, htd⟩
    rw [hfe] at this
    cases this
  · have htmem : t ∈ st.docs ∧ (isLive t && oidOf t = oidOf doc) = true := by
      have : t ∈ st.docs.filter
          (fun td => isLive td && oidOf td = oidOf doc) := by
        rw [hfe]; exact List.mem_cons_self t rest
      exact List.mem_filter.mp this
    have ho : oidOf t = oidOf doc := by
      have := htmem.2
      simp only [Bool.and_eq_true, decide_eq_true_eq] at this
      exact this.2
    have hl : isLive t = true := by
      have := htmem.2
      simp only [Bool.and_eq_true] at this
      exact this.1
    have hsome : amGet [(oidOf doc, doc)] (oidOf t) = some doc := by
      rw [ho]; simp [amGet]
    have hchanged : (dpop doc "_start").any
        (fun kv => ¬ ditem t kv) = false := by
      rw [List.any_eq_false]
      intro kv hkv
      simp only [decide_eq_true_eq, Decidable.not_not]
      exact hmatch t htmem.1 hl ho kv hkv
    have hpop : amPop [(oidOf doc, doc)] (oidOf t) = [] := by
      rw [ho]; simp [amPop]
    have hstep : snapStep (st.docs, [(oidOf doc, doc)], 0) t =
        (st.docs, [], 0) := by
      simp [snapStep, hsome, hpop]
      exact fun x y hxy => hmatch t htmem.1 hl ho (x, y) hxy
    simp only [List.foldl_cons, hstep, foldl_snapStep_empty]
    simp

/-- Witness for C1's amended theorem: re-ingesting `{_oid: 9, x: 1}` (no
explicit `_start`, so the hash matches the stored one) leaves the store
of `s2Store`-shape untouched. -/
theorem snapshot_noop_on_full_item_match_witness :
    saveAndSnapshot
      ⟨[[("_oid", jint 9), ("x", jint 1),
          ("_hash", jstr (jsonhashDoc sha1x [("_oid", jint 9), ("x", jint 1)])),
          ("_start", jint 50), ("_id", newOid 0), ("_end", jnull)]], 1⟩
      [[("_oid", jint 9), ("x", jint 1),
          ("_hash", jstr (jsonhashDoc sha1x [("_oid", jint 9), ("x", jint 1)])),
          ("_start", jint 75)]] =
      (⟨[[("_oid", jint 9), ("x", jint 1),
          ("_hash", jstr (jsonhashDoc sha1x [("_oid", jint 9), ("x", jint 1)])),
          ("_start", jint 50), ("_id", newOid 0), ("_end", jnull)]], 1⟩, 0) :=
  snapshot_noop_on_full_item_match _ _ (by decide) (by decide) (by decide)
    (by decide)

/-- C1, counterexample: scenario S2 run through `save_objects`.  The
stored live version for oid 9 and the incoming `{_oid: 9, x: 1,
_start: 75}` agree on all non-underscore fields (`x = 1`), yet the
snapshot write is not a no-op: it performs two writes (closing the live
version and inserting a new one) and changes the store, because the
compared items include `_hash`, which `_prep_object` computed over the
whole object including its `_start`. -/
theorem snapshot_rewrites_on_equal_client_fields_cex :
    (s2Store.docs.map nonUFields = [[("x", jint 1)]] ∧
      s2Store.docs.all isLive = true) ∧
    nonUFields [("_oid", jint 9), ("x", jint 1), ("_start", jint 75)] =
      [("x", jint 1)] ∧
    (saveObjects sha1x "o" "c"
      [[("_oid", jint 9), ("x", jint 1), ("_start", jint 75)]] 0
      s2Store).map (fun r => (decide (r.1 = s2Store), r.2.1)) =
      .ok (false, 2) := by
  refine ⟨⟨by decide, by decide⟩, by decide, by decide⟩

/-- C2, amended: restricted to the snapshot write path with objects as
the server prepares them, the interval invariant is preserved — starting
from any store satisfying it, a snapshot ingest of one object (a py2
dict carrying `_oid` and a numeric `_start`, without `_end` or `_id`,
whose `_start` is not below the `_start` of its oid's live version)
leaves, for every oid, the stored versions as contiguous pairwise
disjoint half-open `[_start, _end)` intervals with exactly one live
version.  Over arbitrary ingest sequences the invariant does not hold
(see the counterexample): the no-snapshot path stores objects with any
`_end` verbatim. -/
theorem snapshot_ingest_preserves_interval_invariant (st : Store)
    (doc : Doc) (hInv : storeInvB st = true)
    (hObj : snapObjOk st doc = true) :
    storeInvB (saveAndSnapshot st [doc]).1 = true := by
  have hInv0 := hInv
  simp only [snapObjOk, Bool.and_eq_true] at hObj
  obtain ⟨⟨⟨⟨⟨hkeys, hoid⟩, hstart⟩, _hnoend⟩, _hnoid⟩, hmono⟩ := hObj
  obtain ⟨ov, hov⟩ := Option.isSome_iff_exists.mp hoid
  obtain ⟨sb, hsb⟩ := Option.isSome_iff_exists.mp hstart
  have hds : dget doc "_start" = some (jint sb) := vstart_eq_some doc sb hsb
  simp only [storeInvB, Bool.and_eq_true] at hInv
  obtain ⟨⟨hfreshB, hndB⟩, hchainB⟩ := hInv
  have hFresh : ∀ d ∈ st.docs, ∃ k, k < st.nextId ∧
      idOf d = some (newOid k) := by
    intro d hd
    simp only [idsFreshB, List.all_eq_true] at hfreshB
    have h := hfreshB d hd
    rw [List.any_eq_true] at h
    obtain ⟨k, hk, hkid⟩ := h
    exact ⟨k, List.mem_range.mp hk, of_decide_eq_true hkid⟩
  have hNd : (st.docs.map idOf).Nodup := (nodupB_iff _).mp hndB
  have hChain : ∀ o2 ∈ st.docs.map oidOf,
      chainB (versionsOf o2 st.docs) = true := by
    simp only [chainAllB, List.all_eq_true] at hchainB
    exact hchainB
  have hdm : List.foldl (fun m d => amSet m (oidOf d) d) [] [doc] =
      [(oidOf doc, doc)] := by
    simp [List.foldl, amSet]
  have hp : ∀ td, (isLive td && (amGet [(oidOf doc, doc)]
      (oidOf td)).isSome) = (isLive td && oidOf td = oidOf doc) := by
    intro td
    by_cases ho : oidOf doc = oidOf td
    · simp [amGet, ho]
    · have ho2 : ¬ (oidOf td = oidOf doc) := fun hc => ho hc.symm
      simp [amGet, ho, ho2]
  have hfl := filter_live_versions (oidOf doc) st.docs
  by_cases hvs : versionsOf (oidOf doc) st.docs = []
  · -- no stored version of this oid: the object is inserted as the one
    -- live version
    have hfe : st.docs.filter
        (fun td => isLive td && oidOf td = oidOf doc) = [] := by
      rw [hfl, hvs]; rfl
    have hres : saveAndSnapshot st [doc] =
        (⟨st.docs ++ [dset (dset doc "_id" (newOid st.nextId))
          "_end" jnull], st.nextId + 1⟩, 1) := by
      unfold saveAndSnapshot
      rw [hdm]
      simp only [List.filter_congr (fun td _ => hp td)]
      rw [hfe]
      rfl
    rw [hres]
    have hid0 : idOf (dset (dset doc "_id" (newOid st.nextId))
        "_end" jnull) = some (newOid st.nextId) := by
      show dget (dset (dset doc "_id" (newOid st.nextId))
        "_end" jnull) "_id" = some (newOid st.nextId)
      rw [dget_dset_ne _ _ _ _ (by decide), dget_dset_self]
    have hoe : oidOf (dset (dset doc "_id" (newOid st.nextId))
        "_end" jnull) = oidOf doc := by
      show (dget (dset (dset doc "_id" (newOid st.nextId))
        "_end" jnull) "_oid").getD jnull = oidOf doc
      rw [dget_dset_ne _ _ _ _ (by decide), dget_dset_ne _ _ _ _ (by decide)]
      rfl
    have hv0 : vstart (dset (dset doc "_id" (newOid st.nextId))
        "_end" jnull) = some sb := by
      have h1 : dget (dset (dset doc "_id" (newOid st.nextId))
          "_end" jnull) "_start" = some (jint sb) := by
        rw [dget_dset_ne _ _ _ _ (by decide),
          dget_dset_ne _ _ _ _ (by decide), hds]
      simp [vstart, h1]
    have hl0 : isLive (dset (dset doc "_id" (newOid st.nextId))
        "_end" jnull) = true := by
      simp [isLive, dget_dset_self]
    have hch : ∀ o2 ∈ (st.docs ++ [dset (dset doc "_id"
        (newOid st.nextId)) "_end" jnull]).map oidOf,
        chainB (versionsOf o2 (st.docs ++ [dset (dset doc "_id"
          (newOid st.nextId)) "_end" jnull])) = true := by
      intro o2 ho2
      by_cases ho2o : o2 = oidOf doc
      · subst ho2o
        have h1 : versionsOf (oidOf doc) (st.docs ++ [dset (dset doc "_id"
            (newOid st.nextId)) "_end" jnull]) =
            [dset (dset doc "_id" (newOid st.nextId))
              "_end" jnull] := by
          simp only [versionsOf, List.filter_append] at *
          rw [hvs, List.nil_append]
          simp [List.filter_cons, hoe]
        rw [h1]
        show ((vstart (dset (dset doc "_id" (newOid st.nextId))
          "_end" jnull)).isSome && isLive (dset (dset doc "_id"
            (newOid st.nextId)) "_end" jnull)) = true
        rw [hv0, hl0]
        rfl
      · have hne2 : ¬ (oidOf (dset (dset doc "_id" (newOid st.nextId))
            "_end" jnull) = o2) := by
          rw [hoe]; exact fun hc => ho2o hc.symm
        have h1 : versionsOf o2 (st.docs ++ [dset (dset doc "_id"
            (newOid st.nextId)) "_end" jnull]) =
            versionsOf o2 st.docs := by
          simp [versionsOf, List.filter_append, List.filter_cons, hne2]
        rw [h1]
        apply hChain
        rcases List.mem_map.mp ho2 with ⟨d, hdm2, hdo⟩
        rcases List.mem_append.mp hdm2 with hd | hd
        · exact List.mem_map.mpr ⟨d, hd, hdo⟩
        · exfalso
          have hdn : d = dset (dset doc "_id" (newOid st.nextId))
              "_end" jnull := List.mem_singleton.mp hd
          apply ho2o
          rw [← hdo, hdn, hoe]
    exact storeInv_snoc st.docs st.nextId _ hFresh hNd hid0 hch
  · -- a live version exists; the fetched list is exactly that version
    have hodm : oidOf doc ∈ st.docs.map oidOf := by
      rcases List.exists_mem_of_ne_nil _ hvs with ⟨d0, hd0⟩
      have h1 := List.mem_filter.mp hd0
      exact List.mem_map.mpr ⟨d0, h1.1, by simpa using h1.2⟩
    have hchv : chainB (versionsOf (oidOf doc) st.docs) = true :=
      hChain _ hodm
    obtain ⟨t, hft, hlt, _hst, htv⟩ := chainB_filter_live _ hchv hvs
    have htmem : t ∈ st.docs := (List.mem_filter.mp htv).1
    have hto : oidOf t = oidOf doc := by
      simpa using (List.mem_filter.mp htv).2
    have hfe : st.docs.filter
        (fun td => isLive td && oidOf td = oidOf doc) = [t] := by
      rw [hfl, hft]
    have hMono : ∀ s, vstart t = some s → s ≤ sb := by
      intro s hs
      have h := List.all_eq_true.mp hmono t htmem
      have hcond : isLive t = true ∧ decide (oidOf t = oidOf doc) = true :=
        ⟨hlt, by simp [hto]⟩
      rw [if_pos hcond] at h
      rw [hs, hsb] at h
      exact of_decide_eq_true h
    by_cases hchg : (dpop doc "_start").any (fun kv => ¬ ditem t kv) = true
    · -- the document changed: close the live version, merge, insert
      obtain ⟨l1, l2, hsplit, hupd⟩ := updFirst_split st.docs t htmem hNd
      have hres : saveAndSnapshot st [doc] =
          (⟨updFirst st.docs (idOf t) (jint sb) ++
            [dset (dset (dset (dupdate t (dpop doc "_start")) "_start"
              (jint sb)) "_id" (newOid st.nextId)) "_end" jnull],
            st.nextId + 1⟩, 2) := by
        unfold saveAndSnapshot
        rw [hdm]
        simp only [List.filter_congr (fun td _ => hp td)]
        rw [hfe]
        have hstep : snapStep (st.docs, [(oidOf doc, doc)], 0) t =
            (updFirst st.docs (idOf t) (jint sb),
              [(oidOf doc, dset (dupdate t (dpop doc "_start")) "_start"
                (jint sb))], 1) := by
          simp [snapStep, amGet, amSet, hto, hds]
          simpa using hchg
        simp only [List.foldl_cons, List.foldl_nil, hstep]
        rfl
      rw [hres, hupd (jint sb)]
      have hidt' : idOf (dset t "_end" (jint sb)) = idOf t := by
        show dget (dset t "_end" (jint sb)) "_id" = dget t "_id"
        exact dget_dset_ne _ _ _ _ (by decide)
      have hot' : oidOf (dset t "_end" (jint sb)) = oidOf t := by
        show (dget (dset t "_end" (jint sb)) "_oid").getD jnull =
          (dget t "_oid").getD jnull
        rw [dget_dset_ne _ _ _ _ (by decide)]
      have hvt' : vstart (dset t "_end" (jint sb)) = vstart t :=
        vstart_congr _ _ (dget_dset_ne _ _ _ _ (by decide))
      have het' : dget (dset t "_end" (jint sb)) "_end" = some (jint sb) :=
        dget_dset_self _ _ _
      have hkeys' : ((dpop doc "_start").map Prod.fst).Nodup :=
        List.Nodup.sublist
          (List.Sublist.map _ (List.filter_sublist _))
          ((nodupB_iff _).mp hkeys)
      have hmoid : dget (dset (dupdate t (dpop doc "_start")) "_start"
          (jint sb)) "_oid" = some ov := by
        rw [dget_dset_ne _ _ _ _ (by decide),
          dget_dupdate _ _ _ hkeys',
          dget_dpop_ne _ _ _ (by decide), hov]
      have hodoc : oidOf doc = ov := by
        show (dget doc "_oid").getD jnull = ov
        rw [hov]
        rfl
      have hndoid : oidOf (dset (dset (dset (dupdate t (dpop doc "_start"))
          "_start" (jint sb)) "_id" (newOid st.nextId))
          "_end" jnull) = oidOf doc := by
        show (dget (dset (dset (dset (dupdate t (dpop doc "_start"))
          "_start" (jint sb)) "_id" (newOid st.nextId))
          "_end" jnull) "_oid").getD jnull = oidOf doc
        rw [dget_dset_ne _ _ _ _ (by decide),
          dget_dset_ne _ _ _ _ (by decide), hmoid, hodoc]
        rfl
      have hndid : idOf (dset (dset (dset (dupdate t (dpop doc "_start"))
          "_start" (jint sb)) "_id" (newOid st.nextId))
          "_end" jnull) = some (newOid st.nextId) := by
        show dget (dset (dset (dset (dupdate t (dpop doc "_start"))
          "_start" (jint sb)) "_id" (newOid st.nextId))
          "_end" jnull) "_id" = some (newOid st.nextId)
        rw [dget_dset_ne _ _ _ _ (by decide), dget_dset_self]
      have hndstart : vstart (dset (dset (dset (dupdate t
          (dpop doc "_start")) "_start" (jint sb)) "_id"
          (newOid st.nextId)) "_end" jnull) = some sb := by
        have h1 : dget (dset (dset (dset (dupdate t (dpop doc "_start"))
            "_start" (jint sb)) "_id" (newOid st.nextId))
            "_end" jnull) "_start" = some (jint sb) := by
          rw [dget_dset_ne _ _ _ _ (by decide),
            dget_dset_ne _ _ _ _ (by decide), dget_dset_self]
        simp [vstart, h1]
      have hndlive : isLive (dset (dset (dset (dupdate t
          (dpop doc "_start")) "_start" (jint sb)) "_id"
          (newOid st.nextId)) "_end" jnull) = true := by
        simp [isLive, dget_dset_self]
      have hversions : versionsOf (oidOf doc) st.docs =
          versionsOf (oidOf doc) l1 ++ t :: versionsOf (oidOf doc) l2 := by
        rw [hsplit]
        simp [versionsOf, List.filter_append, List.filter_cons, hto]
      have hB : versionsOf (oidOf doc) l2 = [] := by
        apply chainB_live_last t hlt (versionsOf (oidOf doc) l1)
        rw [← hversions]
        exact hchv
      have hversions' : versionsOf (oidOf doc) st.docs =
          versionsOf (oidOf doc) l1 ++ [t] := by
        rw [hversions, hB]
      have hnew : versionsOf (oidOf doc)
          ((l1 ++ dset t "_end" (jint sb) :: l2) ++
            [dset (dset (dset (dupdate t (dpop doc "_start")) "_start"
              (jint sb)) "_id" (newOid st.nextId)) "_end" jnull]) =
          versionsOf (oidOf doc) l1 ++ [dset t "_end" (jint sb),
            dset (dset (dset (dupdate t (dpop doc "_start")) "_start"
              (jint sb)) "_id" (newOid st.nextId)) "_end" jnull] := by
        have hB' : List.filter (fun d => decide (oidOf d = oidOf doc)) l2 =
            [] := hB
        simp [versionsOf, List.filter_append, List.filter_cons, hot', hto,
          hndoid, hB']
      have hchainnew : chainB (versionsOf (oidOf doc) l1 ++
          [dset t "_end" (jint sb),
            dset (dset (dset (dupdate t (dpop doc "_start")) "_start"
              (jint sb)) "_id" (newOid st.nextId)) "_end" jnull]) =
          true := by
        apply chainB_surgery sb t _ _ hvt' het' hMono hndstart hndlive
        rw [← hversions']
        exact hchv
      have hmemdocs : ∀ d ∈ l1 ++ dset t "_end" (jint sb) :: l2,
          d = dset t "_end" (jint sb) ∨ d ∈ st.docs := by
        intro d hd
        rcases List.mem_append.mp hd with hd' | hd'
        · exact Or.inr (by rw [hsplit]; exact List.mem_append_left _ hd')
        · rcases List.mem_cons.mp hd' with hd'' | hd''
          · exact Or.inl hd''
          · refine Or.inr ?_
            rw [hsplit]
            exact List.mem_append_right _ (List.mem_cons_of_mem _ hd'')
      have hFresh' : ∀ d ∈ l1 ++ dset t "_end" (jint sb) :: l2,
          ∃ k, k < st.nextId ∧ idOf d = some (newOid k) := by
        intro d hd
        rcases hmemdocs d hd with hd' | hd'
        · subst hd'
          obtain ⟨k, hk, hik⟩ := hFresh t htmem
          exact ⟨k, hk, by rw [hidt', hik]⟩
        · exact hFresh d hd'
      have hNd' : ((l1 ++ dset t "_end" (jint sb) :: l2).map idOf).Nodup := by
        have h1 : (l1 ++ dset t "_end" (jint sb) :: l2).map idOf =
            st.docs.map idOf := by
          rw [hsplit]
          simp [List.map_append, List.map_cons, hidt']
        rw [h1]
        exact hNd
      have hothers : ∀ o2, o2 ≠ oidOf doc →
          versionsOf o2 ((l1 ++ dset t "_end" (jint sb) :: l2) ++
            [dset (dset (dset (dupdate t (dpop doc "_start")) "_start"
              (jint sb)) "_id" (newOid st.nextId)) "_end" jnull]) =
          versionsOf o2 st.docs := by
        intro o2 hne2
        have hnt' : ¬ (oidOf (dset t "_end" (jint sb)) = o2) := by
          rw [hot', hto]; exact fun hc => hne2 hc.symm
        have hnt : ¬ (oidOf t = o2) := by
          rw [hto]; exact fun hc => hne2 hc.symm
        have hnnd : ¬ (oidOf (dset (dset (dset (dupdate t
            (dpop doc "_start")) "_start" (jint sb)) "_id"
            (newOid st.nextId)) "_end" jnull) = o2) := by
          rw [hndoid]; exact fun hc => hne2 hc.symm
        rw [hsplit]
        simp [versionsOf, List.filter_append, List.filter_cons, hnt', hnt,
          hnnd]
      have hCh : ∀ o2 ∈ ((l1 ++ dset t "_end" (jint sb) :: l2) ++
          [dset (dset (dset (dupdate t (dpop doc "_start")) "_start"
            (jint sb)) "_id" (newOid st.nextId))
            "_end" jnull]).map oidOf,
          chainB (versionsOf o2 ((l1 ++ dset t "_end" (jint sb) :: l2) ++
            [dset (dset (dset (dupdate t (dpop doc "_start")) "_start"
              (jint sb)) "_id" (newOid st.nextId))
              "_end" jnull])) = true := by
        intro o2 ho2
        by_cases hq : o2 = oidOf doc
        · subst hq
          rw [hnew]
          exact hchainnew
        · rw [hothers o2 hq]
          apply hChain
          rcases List.mem_map.mp ho2 with ⟨d, hdmem, hdo⟩
          rcases List.mem_append.mp hdmem with hd' | hd'
          · rcases hmemdocs d hd' with he | he
            · exfalso
              apply hq
              rw [← hdo, he, hot', hto]
            · exact List.mem_map.mpr ⟨d, he, hdo⟩
          · exfalso
            apply hq
            have hdn := List.mem_singleton.mp hd'
            rw [← hdo, hdn, hndoid]
      exact storeInv_snoc _ _ _ hFresh' hNd' hndid hCh
    · -- the document did not change: the store is untouched
      have hb : ((dpop doc "_start").any (fun kv => ¬ ditem t kv)) =
          false := Bool.eq_false_iff.mpr hchg
      have hres : saveAndSnapshot st [doc] =
          (⟨st.docs ++ [], st.nextId + 0⟩, 0) := by
        unfold saveAndSnapshot
        rw [hdm]
        simp only [List.filter_congr (fun td _ => hp td)]
        rw [hfe]
        have hstep : snapStep (st.docs, [(oidOf doc, doc)], 0) t =
            (st.docs, [], 0) := by
          simp [snapStep, amGet, amPop, hto]
          simpa using hb
        simp only [List.foldl_cons, List.foldl_nil, hstep]
        rfl
      rw [hres]
      show storeInvB ⟨st.docs ++ [], st.nextId + 0⟩ = true
      have heq : (⟨st.docs ++ [], st.nextId + 0⟩ : Store) = st := by
        simp
      rw [heq]
      exact hInv0

/-- Witness for C2's amended theorem: ingesting `{_oid: 1, x: 2,
_start: 5}` over a store holding the single live version `{_oid: 1,
x: 1, _start: 0, _end: null}` satisfies both hypotheses, and the
resulting store still satisfies the interval invariant. -/
theorem snapshot_ingest_preserves_interval_invariant_witness :
    storeInvB ⟨[[("_oid", jint 1), ("x", jint 1), ("_start", jint 0),
      ("_id", newOid 0), ("_end", jnull)]], 1⟩ = true ∧
    snapObjOk ⟨[[("_oid", jint 1), ("x", jint 1), ("_start", jint 0),
      ("_id", newOid 0), ("_end", jnull)]], 1⟩
      [("_oid", jint 1), ("x", jint 2), ("_start", jint 5)] = true ∧
    storeInvB (saveAndSnapshot
      ⟨[[("_oid", jint 1), ("x", jint 1), ("_start", jint 0),
        ("_id", newOid 0), ("_end", jnull)]], 1⟩
      [[("_oid", jint 1), ("x", jint 2), ("_start", jint 5)]]).1 = true :=
  ⟨by decide, by decide,
    snapshot_ingest_preserves_interval_invariant _ _ (by decide)
      (by decide)⟩

end Metrique
